import Mathlib

/-!
Verification of the LNS matheuristic core of the Paper-ITOR-2018 repository.

The development shallowly embeds the C++ sources in `source/src/`:
* `solution_pool.cpp` — the bounded, deduplicated solution pool;
* `rothberg.cpp` — the polishing heuristic (mutation + recombination);
* `maravilha.cpp` — the biased-recombination heuristic;
* `abort_callback.cpp` — the sub-problem abort controller.

Numeric values (C++ `double` / `IloNum`) are modelled as rationals `ℚ`;
the pervasive tolerance `1e-5` becomes the rational `1 / 100000`.
C++ `unsigned long long` counters are modelled as `ℕ` with explicit
`% 2 ^ 64` where the code relies on modular wrap-around.
Calls into CPLEX (sub-MIP solves, timer reads, random draws) are external
events: each heuristic run is parameterised by the stream of outcomes those
calls would produce, and the run functions record the parameters the code
installs on each sub-MIP solve.
-/

namespace ORCS

/-- `SIMILARITY_THRESHOLD` / `THRESHOLD` constant (`1e-5`) shared by
`solution_pool.h` and `heuristic.h`. -/
def THRESHOLD : ℚ := 1 / 100000

/-- `IloObjective::Sense` restricted to the two values the code uses. -/
inductive Sense where
  | Minimize
  | Maximize
deriving DecidableEq, Repr

/-- `SolutionPool::Entry` (`solution_pool.h`): a solution vector, its
objective value and the age key used for tie-breaking. -/
structure Entry where
  solution : List ℚ
  value : ℚ
  age : ℕ
deriving DecidableEq, Repr

/-- State of a `SolutionPool` (`solution_pool.h`): the configured sense,
capacity and sortedness flag, the `next_age_` counter and the entry vector. -/
structure SolutionPool where
  sense : Sense
  max_size : ℕ
  sorted : Bool
  next_age : ℕ
  entries : List Entry
deriving DecidableEq, Repr

/-- C++ `std::numeric_limits<unsigned long long>::max()`, the initial value
of the `next_age_` counter. -/
def ULLONG_MAX : ℕ := 2 ^ 64 - 1

/-- The `SolutionPool` constructor: empty entry vector, `next_age_`
initialised to `ULLONG_MAX`. -/
def mk_pool (sense : Sense) (max_size : ℕ) (sorted : Bool) : SolutionPool :=
  ⟨sense, max_size, sorted, ULLONG_MAX, []⟩

/-- The similarity test of `add_entry` (`solution_pool.cpp`, lines 36-42):
`equal` stays `true` iff no coordinate differs by more than the threshold.
The C++ loop runs over the indices of `s`; pool entries always have the same
dimension as the solutions offered to the pool, so pairing the two vectors
with `zip` reproduces the loop. -/
def similar (s t : List ℚ) : Bool :=
  (s.zip t).all fun p => !(|p.1 - p.2| > THRESHOLD)

/-- Strictly-better comparison with respect to the pool's sense, as written
in `add_entry` (`value < worst_val` for `Minimize`, `>` for `Maximize`). -/
def better (sense : Sense) (a b : ℚ) : Bool :=
  match sense with
  | Sense.Minimize => a < b
  | Sense.Maximize => a > b

/-- The worst-entry scan of `add_entry` (`solution_pool.cpp`, lines 48-54).
The loop starts `worst_val` at `∓DBL_MAX` and replaces it whenever the
current entry is strictly worse, so it returns the first index attaining the
worst objective value.  The sentinel is modelled by returning `none` on the
empty vector; the recursion keeps the first index attaining the extremum,
exactly as the left-to-right scan with a strict comparison does. -/
def worstPair (sense : Sense) : List Entry → Option (ℕ × ℚ)
  | [] => none
  | e :: rest =>
    match worstPair sense rest with
    | none => some (0, e.value)
    | some (i, wv) =>
      if better sense e.value wv then some (i + 1, wv) else some (0, e.value)

/-- The comparator passed to `std::sort` in `add_entry`
(`solution_pool.cpp`, lines 86-95). -/
def cmpEntry (sense : Sense) (e1 e2 : Entry) : Bool :=
  if |e1.value - e2.value| < THRESHOLD then
    decide (e1.age < e2.age)
  else
    match sense with
    | Sense.Minimize => decide (e1.value < e2.value)
    | Sense.Maximize => decide (e1.value > e2.value)

/-- Insertion of one entry into a list sorted by `cmpEntry` (helper for the
model of `std::sort`). -/
def orderedInsertEntry (sense : Sense) (e : Entry) : List Entry → List Entry
  | [] => [e]
  | a :: l => if cmpEntry sense e a then e :: a :: l else a :: orderedInsertEntry sense e l

/-- Model of the `std::sort` call of `add_entry`: an insertion sort using
the code's comparator.  (`std::sort` is free to produce any order consistent
with the comparator; insertion sort is one deterministic such order.) -/
def sortEntries (sense : Sense) : List Entry → List Entry
  | [] => []
  | a :: l => orderedInsertEntry sense a (sortEntries sense l)

/-- `SolutionPool::add_entry` (`solution_pool.cpp`, lines 25-104).
Returns the `inserted` flag together with the updated pool.
The single C++ loop both returns `false` at the first similar entry and
accumulates the worst index; the model separates the two scans, which is
extensionally the same: rejection happens iff some entry is similar, and the
worst scan runs over the whole vector otherwise. -/
def add_entry (pool : SolutionPool) (solution : List ℚ) (value : ℚ) :
    Bool × SolutionPool :=
  if pool.entries.any fun e => similar solution e.solution then
    (false, pool)
  else
    let newEntries : Option (List Entry) :=
      if pool.entries.length < pool.max_size then
        -- emplace_back, with a copy of the solution and age `next_age_`
        some (pool.entries ++ [⟨solution, value, pool.next_age⟩])
      else
        match worstPair pool.sense pool.entries with
        | some (wi, wv) =>
          if better pool.sense value wv then
            -- overwrite the worst entry in place
            some (pool.entries.set wi ⟨solution, value, pool.next_age⟩)
          else
            none
        | none => none
    match newEntries with
    | none => (false, pool)
    | some es =>
      -- sort on successful insertion if the pool is sorted, then `--next_age_`;
      -- the C++ decrement wraps modulo 2^64, but starting from ULLONG_MAX the
      -- counter stays positive for 2^64 - 1 insertions, within which the
      -- truncated `ℕ` subtraction agrees with the machine counter
      let es' := if pool.sorted then sortEntries pool.sense es else es
      (true, { pool with entries := es', next_age := pool.next_age - 1 })

/-- A sequence of `add_entry` calls, each candidate given as
(solution, objective value); models repeated pool updates by the
orchestrator and the heuristics. -/
def run_adds (pool : SolutionPool) (cands : List (List ℚ × ℚ)) : SolutionPool :=
  cands.foldl (fun p c => (add_entry p c.1 c.2).2) pool

/-! ## Heuristic runs

The two heuristics (`rothberg.cpp`, `maravilha.cpp`) interact with CPLEX:
each iteration solves one sub-MIP through the subordinate solver.  The model
treats each solve as an external event carrying the values the code reads
back (`cplex.solve()`, `getObjValue`, `getValues`, `getStatus`) together
with the value of the timer check at the head of the iteration and the
random draws consumed.  The run functions record, for every sub-MIP solve,
the data the code installs on the solver (MIP start, abort-callback
limits), so that theorems can speak about those calls. -/

/-- `IloAlgorithm::Status` as read via `cplex.getStatus()`. -/
inductive Status where
  | Unknown
  | Feasible
  | Optimal
  | Infeasible
  | Unbounded
  | InfeasibleOrUnbounded
  | Error
deriving DecidableEq, Repr

/-- Outcome of one sub-MIP solve: the return value of `cplex.solve()`, the
solution vector and objective read back when a solution was found, and the
final status. -/
structure SubmipOutcome where
  found : Bool
  solution : List ℚ
  value : ℚ
  status : Status
deriving DecidableEq, Repr

/-- The data installed on the subordinate solver for one sub-MIP solve:
the argument of `addMIPStart` (if any call is made), and the limits passed
to `AbortCallback::create_instance`. -/
structure SubMIPCall where
  mip_start : Option (List ℚ)
  time_limit : ℚ
  nodes_limit : ℕ
  stagnation_limit : ℕ
deriving DecidableEq, Repr

/-- The incumbent-improvement test shared by both heuristics
(`rothberg.cpp` lines 124-127 and 270-273, `maravilha.cpp` lines 171-174):
the candidate must beat the running incumbent by more than `THRESHOLD` in
the direction of the objective sense. -/
def improves (sense : Sense) (candidate incumbent : ℚ) : Bool :=
  match sense with
  | Sense.Minimize => candidate < incumbent - THRESHOLD
  | Sense.Maximize => candidate > incumbent + THRESHOLD

/-- Parameters of the Rothberg heuristic fixed at construction
(`rothberg.cpp` lines 14-24). -/
structure RothbergParams where
  sense : Sense
  num_mutations : ℕ
  num_recombinations : ℕ
  offset_reduction : ℚ
  offset_minimum : ℚ
  submip_nodes_unsuccessful : ℕ
deriving Repr

/-- External events consumed by one mutation iteration: the timer check at
the loop head and the sub-MIP solve outcome.  The random draws selecting
the seed pool entry and the shuffle of the binary variables only determine
which bounds are fixed in the sub-MIP, which the model does not track. -/
structure MutationEvent where
  timer_expired : Bool
  outcome : SubmipOutcome
deriving Repr

/-- Whether a recombination iteration ran in consensus mode
(`i == consider_all`) or pairwise mode. -/
inductive RecombMode where
  | consensus
  | pairwise
deriving DecidableEq, Repr

/-- External events consumed by one recombination iteration: the timer
check, the two random draws selecting the pair of pool entries (consumed
only in pairwise mode), and the sub-MIP outcome. -/
structure RecombEvent where
  timer_expired : Bool
  rand_idx2 : ℕ
  rand_idx1 : ℕ
  outcome : SubmipOutcome
deriving Repr

/-- Record of one recombination iteration: its mode, the per-variable
fixing decisions (`some v` = both bounds set to `v`, `none` = bounds reset
to the original ones), and the solver call data. -/
structure RecombCall where
  mode : RecombMode
  fixes : List (ℕ × Option ℚ)
  call : SubMIPCall
deriving DecidableEq, Repr

/-- Running state of one `Rothberg::run` invocation: the adaptive
parameters, the running incumbent, the pool, the recorded solver calls and
the loop-break flag. -/
structure RothRunState where
  fixing_fraction : ℚ
  offset : ℚ
  incumbent_obj : ℚ
  incumbent_sol : List ℚ
  pool : SolutionPool
  mutation_calls : List SubMIPCall
  recomb_calls : List (ℕ × RecombCall)
  stopped : Bool
deriving Repr

/-- Rounding of a 0/1 variable value (`> 0.5 ? 1.0 : 0.0`). -/
def round01 (x : ℚ) : ℚ := if x > 1 / 2 then 1 else 0

/-- Coordinate access on a solution vector (`solution[idx]`); all vectors
in play have the full variable dimension, so the default is never used on
inputs produced by the code. -/
def getCoord (s : List ℚ) (idx : ℕ) : ℚ := s.getD idx 0

/-- Handling of a sub-MIP outcome shared by the mutation and recombination
iterations (`rothberg.cpp` lines 109-141 and 257-284): if a solution was
found, offer it to the pool and adopt it as the running incumbent iff it
improves by more than the threshold.  Returns the updated state and the
`submip_has_improved` flag. -/
def harvest (sense : Sense) (o : SubmipOutcome) (st : RothRunState) :
    RothRunState × Bool :=
  if o.found then
    let pool' := (add_entry st.pool o.solution o.value).2
    if improves sense o.value st.incumbent_obj then
      ({ st with pool := pool', incumbent_obj := o.value,
                 incumbent_sol := o.solution }, true)
    else
      ({ st with pool := pool' }, false)
  else
    (st, false)

/-- One mutation iteration (`rothberg.cpp` lines 62-157).  Note that no
`addMIPStart` call occurs in this loop, so the recorded call carries
`mip_start := none`. -/
def mutation_iter (P : RothbergParams) (time_limit : ℚ) (ev : MutationEvent)
    (st : RothRunState) : RothRunState :=
  if st.stopped then st
  else if ev.timer_expired then { st with stopped := true }
  else
    let call : SubMIPCall :=
      { mip_start := none, time_limit := time_limit,
        nodes_limit := ULLONG_MAX,
        stagnation_limit := P.submip_nodes_unsuccessful }
    let hr := harvest P.sense ev.outcome
      { st with mutation_calls := st.mutation_calls ++ [call] }
    let st1 := hr.1
    -- update of the fixing fraction (lines 143-156)
    if hr.2 then st1
    else if ev.outcome.status = Status.Optimal ∨
            ev.outcome.status = Status.Infeasible then
      { st1 with fixing_fraction := max 0 (st1.fixing_fraction - st1.offset) }
    else
      { st1 with fixing_fraction := min 1 (st1.fixing_fraction + st1.offset) }

/-- The mutation loop (`for i in [0, num_mutations)`), with the sticky
break flag standing for the C++ `break`. -/
def mutation_phase (P : RothbergParams) (time_limit : ℚ)
    (evs : ℕ → MutationEvent) (st : RothRunState) : RothRunState :=
  (List.range P.num_mutations).foldl
    (fun s i => mutation_iter P time_limit (evs i) s) st

/-- The per-variable fixing decisions of the consensus recombination branch
(`rothberg.cpp` lines 188-205): a binary variable is fixed to the rounded
value of the first pool entry iff every other entry agrees with that value
within the threshold (the inner loop breaks at the first disagreement
`≥ THRESHOLD`). -/
def consensus_fixes (entries : List Entry) (binaries : List ℕ) :
    List (ℕ × Option ℚ) :=
  binaries.map fun idx =>
    match entries with
    | [] => (idx, none)
    | e0 :: rest =>
      let value := round01 (getCoord e0.solution idx)
      if rest.all fun e => |value - getCoord e.solution idx| < THRESHOLD then
        (idx, some value)
      else
        (idx, none)

/-- The per-variable fixing decisions of the pairwise recombination branch
(`rothberg.cpp` lines 222-231): fix to the rounded value of the first
entry iff the two selected entries agree within the threshold. -/
def pairwise_fixes (e1 e2 : Entry) (binaries : List ℕ) :
    List (ℕ × Option ℚ) :=
  binaries.map fun idx =>
    if |getCoord e1.solution idx - getCoord e2.solution idx| < THRESHOLD then
      (idx, some (round01 (getCoord e1.solution idx)))
    else
      (idx, none)

/-- One recombination iteration (`rothberg.cpp` lines 170-285).  Iteration
`consider_all` uses consensus mode with the first pool entry as MIP start;
every other iteration selects `idx2 ∈ [1, size)` and `idx1 ∈ [0, idx2)` and
uses pairwise mode with entry `idx1` as MIP start.  No fixing-fraction
adaptation happens here. -/
def recomb_iter (P : RothbergParams) (time_limit : ℚ) (binaries : List ℕ)
    (consider_all : ℕ) (i : ℕ) (ev : RecombEvent) (st : RothRunState) :
    RothRunState :=
  if st.stopped then st
  else if ev.timer_expired then { st with stopped := true }
  else
    let rc : RecombCall :=
      if i = consider_all then
        let e0 := st.pool.entries.getD 0 ⟨[], 0, 0⟩
        { mode := RecombMode.consensus,
          fixes := consensus_fixes st.pool.entries binaries,
          call := { mip_start := some e0.solution, time_limit := time_limit,
                    nodes_limit := ULLONG_MAX,
                    stagnation_limit := P.submip_nodes_unsuccessful } }
      else
        let idx2 := ev.rand_idx2 % (st.pool.entries.length - 1) + 1
        let idx1 := ev.rand_idx1 % idx2
        let e1 := st.pool.entries.getD idx1 ⟨[], 0, 0⟩
        let e2 := st.pool.entries.getD idx2 ⟨[], 0, 0⟩
        { mode := RecombMode.pairwise,
          fixes := pairwise_fixes e1 e2 binaries,
          call := { mip_start := some e1.solution, time_limit := time_limit,
                    nodes_limit := ULLONG_MAX,
                    stagnation_limit := P.submip_nodes_unsuccessful } }
    (harvest P.sense ev.outcome
      { st with recomb_calls := st.recomb_calls ++ [(i, rc)] }).1

/-- The recombination loop over a list of iteration indices. -/
def recomb_loop (P : RothbergParams) (time_limit : ℚ) (binaries : List ℕ)
    (consider_all : ℕ) (evs : ℕ → RecombEvent) :
    List ℕ → RothRunState → RothRunState
  | [], st => st
  | i :: rest, st =>
      recomb_loop P time_limit binaries consider_all evs rest
        (recomb_iter P time_limit binaries consider_all i (evs i) st)

/-- Inputs of one `Rothberg::run` invocation that come from the outside:
the pool, the incumbent read from the callback, the random draw for the
consensus iteration index, and the per-iteration event streams. -/
structure RothbergInput where
  pool : SolutionPool
  incumbent_obj : ℚ
  incumbent_sol : List ℚ
  rand_consider : ℕ
  mut_events : ℕ → MutationEvent
  rec_events : ℕ → RecombEvent

/-- `Rothberg::run` (`rothberg.cpp` lines 51-293).  The mutation phase runs
only when the pool is non-empty, and the offset is updated exactly once
after that loop, inside the same guard (lines 160-161).  The recombination
phase runs only when the pool then holds at least two entries; its
`consider_all` index is `random_() % num_recombinations` (line 168) —
when `num_recombinations = 0` the C++ `%` is a division by zero (undefined
behaviour); `Nat.mod` by 0 is total here and the loop below performs no
iterations.  The timer is re-checked at each recombination iteration, so
the mutation-phase break flag is reset before the second loop.  The final
state's incumbent is what `callback->setSolution` reports (line 289). -/
def rothberg_run (P : RothbergParams) (time_limit : ℚ) (binaries : List ℕ)
    (fixing_fraction offset : ℚ) (inp : RothbergInput) : RothRunState :=
  let st0 : RothRunState :=
    { fixing_fraction := fixing_fraction, offset := offset,
      incumbent_obj := inp.incumbent_obj, incumbent_sol := inp.incumbent_sol,
      pool := inp.pool, mutation_calls := [], recomb_calls := [],
      stopped := false }
  let st1 :=
    if 1 ≤ st0.pool.entries.length then
      let s := mutation_phase P time_limit inp.mut_events st0
      { s with offset := max P.offset_minimum ((1 - P.offset_reduction) * s.offset) }
    else st0
  if 2 ≤ st1.pool.entries.length then
    recomb_loop P time_limit binaries (inp.rand_consider % P.num_recombinations)
      inp.rec_events (List.range P.num_recombinations) { st1 with stopped := false }
  else st1

/-- Parameters of the Maravilha heuristic fixed at construction
(`maravilha.cpp` lines 14-22); its `offset` is never modified by `run`. -/
structure MaravilhaParams where
  sense : Sense
  iterations : ℕ
  offset : ℚ
  submip_nodes_unsuccessful : ℕ
deriving Repr

/-- External events consumed by one Maravilha iteration: the timer check,
the random draw selecting a pool entry, and the sub-MIP outcome.  The bias
computation and the weighted sampling of variables to free (lines 84-139)
only determine which bounds are relaxed in the sub-MIP, which the model
does not track. -/
structure MaravilhaEvent where
  timer_expired : Bool
  rand_pool : ℕ
  outcome : SubmipOutcome
deriving Repr

/-- Running state of one `Maravilha::run` invocation. -/
structure MarRunState where
  submip_min : ℚ
  submip_max : ℚ
  incumbent_obj : ℚ
  incumbent_sol : List ℚ
  pool : SolutionPool
  calls : List SubMIPCall
  stopped : Bool
deriving Repr

/-- The solution-harvesting block of `Maravilha::run`
(`maravilha.cpp` lines 156-188), identical in structure to the Rothberg
one: offer a found solution to the pool and adopt it as incumbent iff it
improves by more than the threshold. -/
def mar_harvest (sense : Sense) (o : SubmipOutcome) (st : MarRunState) :
    MarRunState × Bool :=
  if o.found then
    let pool' := (add_entry st.pool o.solution o.value).2
    if improves sense o.value st.incumbent_obj then
      ({ st with pool := pool', incumbent_obj := o.value,
                 incumbent_sol := o.solution }, true)
    else
      ({ st with pool := pool' }, false)
  else
    (st, false)

/-- One Maravilha iteration (`maravilha.cpp` lines 67-204).  The MIP start
installed on the solver is the current (possibly already updated) incumbent
solution (line 145).  On no improvement, the sub-MIP size window is
adapted: fully-resolved sub-MIPs move `submip_min` toward `submip_max` by
the fraction `offset` of the window, unresolved ones move `submip_max`
toward `submip_min` likewise (lines 191-203). -/
def maravilha_iter (P : MaravilhaParams) (time_limit : ℚ)
    (ev : MaravilhaEvent) (st : MarRunState) : MarRunState :=
  if st.stopped then st
  else if ev.timer_expired then { st with stopped := true }
  else
    let call : SubMIPCall :=
      { mip_start := some st.incumbent_sol, time_limit := time_limit,
        nodes_limit := ULLONG_MAX,
        stagnation_limit := P.submip_nodes_unsuccessful }
    let hr := mar_harvest P.sense ev.outcome
      { st with calls := st.calls ++ [call] }
    let st1 := hr.1
    if hr.2 then st1
    else if ev.outcome.status = Status.Optimal ∨
            ev.outcome.status = Status.Infeasible then
      { st1 with submip_min :=
          st1.submip_min + (st1.submip_max - st1.submip_min) * P.offset }
    else
      { st1 with submip_max :=
          st1.submip_max - (st1.submip_max - st1.submip_min) * P.offset }

/-- `Maravilha::run` (`maravilha.cpp` lines 49-213): the whole body is
guarded by `pool.size() > 0`; when the pool is empty nothing runs and no
solution is re-reported, so the incumbent is unchanged either way. -/
def maravilha_run (P : MaravilhaParams) (time_limit : ℚ)
    (submip_min submip_max : ℚ) (pool : SolutionPool)
    (incumbent_obj : ℚ) (incumbent_sol : List ℚ)
    (evs : ℕ → MaravilhaEvent) : MarRunState :=
  let st0 : MarRunState :=
    { submip_min := submip_min, submip_max := submip_max,
      incumbent_obj := incumbent_obj, incumbent_sol := incumbent_sol,
      pool := pool, calls := [], stopped := false }
  if 0 < pool.entries.length then
    (List.range P.iterations).foldl
      (fun s i => maravilha_iter P time_limit (evs i) s) st0
  else st0

/-! ## Abort callback -/

/-- Parameters passed to `AbortCallback::create_instance`
(`abort_callback.cpp` lines 5-10); `has_timer` records whether the timer
pointer is non-null. -/
structure AbortParams where
  time_limit : ℚ
  nodes_limit : ℕ
  nodes_unsuccessful : ℕ
  has_timer : Bool
deriving Repr

/-- Mutable state of an `AbortCallback` instance. -/
structure AbortState where
  initialized : Bool
  aborted : Bool
  obj_last_incumbent : ℚ
  nodes_last_incumbent : ℕ
deriving DecidableEq, Repr

/-- Values the callback reads from CPLEX on one invocation of `main`:
the timer reading in seconds, `getIncumbentObjValue()` and
`getNnodes64()`.  Node counts are nondecreasing during a solve, so the
truncated `ℕ` subtraction below agrees with the C++ signed difference. -/
structure AbortObs where
  elapsed_seconds : ℚ
  incumbent_obj : ℚ
  nnodes : ℕ
deriving Repr

/-- `AbortCallback::main` (`abort_callback.cpp` lines 25-70).  The
stagnation baseline is reset only when the incumbent objective DECREASES by
more than the literal `1e-5` of line 59, with no reference to the
objective sense. -/
def abort_main (P : AbortParams) (st : AbortState) (obs : AbortObs) :
    AbortState :=
  if st.aborted then st
  else if P.has_timer ∧ obs.elapsed_seconds ≥ P.time_limit then
    { st with aborted := true }
  else if obs.nnodes ≥ P.nodes_limit then
    { st with aborted := true }
  else if !st.initialized then
    { st with initialized := true, obj_last_incumbent := obs.incumbent_obj,
              nodes_last_incumbent := obs.nnodes }
  else if st.obj_last_incumbent - obs.incumbent_obj > 1 / 100000 then
    { st with obj_last_incumbent := obs.incumbent_obj,
              nodes_last_incumbent := obs.nnodes }
  else if obs.nnodes - st.nodes_last_incumbent > P.nodes_unsuccessful then
    { st with aborted := true }
  else st

/-! ## Predicates used by the statements -/

/-- `a` is not worse than `b` with respect to the objective sense. -/
def notWorse (sense : Sense) (a b : ℚ) : Prop :=
  match sense with
  | Sense.Minimize => a ≤ b
  | Sense.Maximize => b ≤ a

/-- Relation between the incumbent read at the start of a run
(`obj0`, `sol0`) and the running incumbent: either untouched, or replaced
by something that improves on the start value by more than the
threshold. -/
def IncumbentOK (sense : Sense) (obj0 : ℚ) (sol0 : List ℚ)
    (obj : ℚ) (sol : List ℚ) : Prop :=
  (obj = obj0 ∧ sol = sol0) ∨ improves sense obj obj0 = true

/-- The order relation the sorted pool actually realises between adjacent
entries: age-ascending when the objectives are within the threshold,
strictly-better-first otherwise. -/
def sortedAdjacent (sense : Sense) (p q : Entry) : Prop :=
  if |p.value - q.value| < THRESHOLD then p.age ≤ q.age
  else better sense p.value q.value = true

/-- In-range bounds of the Rothberg adaptive state. -/
def RothParamOK (st : RothRunState) : Prop :=
  0 ≤ st.fixing_fraction ∧ st.fixing_fraction ≤ 1 ∧
    0 ≤ st.offset ∧ st.offset ≤ 1

/-- In-range bounds of the Maravilha adaptive window. -/
def MarParamOK (st : MarRunState) : Prop :=
  0 ≤ st.submip_min ∧ st.submip_min ≤ st.submip_max ∧ st.submip_max ≤ 1

/-- The adaptive state handed from one Rothberg invocation to the next
(`fixing_fraction_`, `offset_` are members of the heuristic object and
persist across `run` calls). -/
def rothberg_many (P : RothbergParams) (time_limit : ℚ) (binaries : List ℕ)
    (invs : List RothbergInput) (f off : ℚ) : ℚ × ℚ :=
  invs.foldl
    (fun fo inp =>
      let r := rothberg_run P time_limit binaries fo.1 fo.2 inp
      (r.fixing_fraction, r.offset))
    (f, off)

/-- Inputs of one `Maravilha::run` invocation. -/
structure MaravilhaInput where
  pool : SolutionPool
  incumbent_obj : ℚ
  incumbent_sol : List ℚ
  events : ℕ → MaravilhaEvent

/-- The adaptive window handed from one Maravilha invocation to the next
(`submip_min_`, `submip_max_` persist across `run` calls). -/
def maravilha_many (P : MaravilhaParams) (time_limit : ℚ)
    (invs : List MaravilhaInput) (mn mx : ℚ) : ℚ × ℚ :=
  invs.foldl
    (fun w inp =>
      let r := maravilha_run P time_limit w.1 w.2 inp.pool
        inp.incumbent_obj inp.incumbent_sol inp.events
      (r.submip_min, r.submip_max))
    (mn, mx)

/-! ## Concrete inputs used to exercise the model -/

/-- A sub-MIP solve that finds nothing and ends with status `Unknown`. -/
def evNone : SubmipOutcome :=
  { found := false, solution := [], value := 0, status := Status.Unknown }

/-- A mutation event with a live timer and an unsuccessful solve. -/
def mutEvNone : MutationEvent := { timer_expired := false, outcome := evNone }

/-- A recombination event with a live timer and an unsuccessful solve. -/
def recEvNone : RecombEvent :=
  { timer_expired := false, rand_idx2 := 0, rand_idx1 := 0, outcome := evNone }

/-- A Maravilha event with a live timer and an unsuccessful solve. -/
def marEvNone : MaravilhaEvent :=
  { timer_expired := false, rand_pool := 0, outcome := evNone }

/-- A one-entry unsorted minimising pool. -/
def poolOne : SolutionPool := (add_entry (mk_pool Sense.Minimize 2 false) [0] 0).2

/-- A two-entry sorted minimising pool. -/
def poolTwo : SolutionPool :=
  (add_entry (add_entry (mk_pool Sense.Minimize 3 true) [0] 0).2 [1] 1).2

/-- Rothberg parameters with one mutation and no recombinations. -/
def rothP1 : RothbergParams :=
  { sense := Sense.Minimize, num_mutations := 1, num_recombinations := 0,
    offset_reduction := 0, offset_minimum := 0, submip_nodes_unsuccessful := 5 }

/-- Rothberg parameters with one mutation and two recombinations. -/
def rothP2 : RothbergParams :=
  { sense := Sense.Minimize, num_mutations := 1, num_recombinations := 2,
    offset_reduction := 1 / 4, offset_minimum := 1 / 100,
    submip_nodes_unsuccessful := 5 }

/-- A Rothberg invocation on the one-entry pool with unsuccessful solves. -/
def inpOne : RothbergInput :=
  { pool := poolOne, incumbent_obj := 0, incumbent_sol := [0],
    rand_consider := 0, mut_events := fun _ => mutEvNone,
    rec_events := fun _ => recEvNone }

/-- A Rothberg invocation on the two-entry pool with unsuccessful solves. -/
def inpTwo : RothbergInput :=
  { pool := poolTwo, incumbent_obj := 0, incumbent_sol := [0],
    rand_consider := 3, mut_events := fun _ => mutEvNone,
    rec_events := fun _ => recEvNone }

/-- Maravilha parameters with one iteration. -/
def marP1 : MaravilhaParams :=
  { sense := Sense.Minimize, iterations := 1, offset := 1 / 2,
    submip_nodes_unsuccessful := 5 }

/-- A full one-slot minimising pool holding objective 10. -/
def poolFull1 : SolutionPool :=
  (add_entry (mk_pool Sense.Minimize 1 false) [0] 10).2

/-- A concrete Rothberg running state over the one-entry pool. -/
def stOne : RothRunState :=
  { fixing_fraction := 1 / 2, offset := 1 / 5, incumbent_obj := 0,
    incumbent_sol := [0], pool := poolOne, mutation_calls := [],
    recomb_calls := [], stopped := false }

/-- A concrete Rothberg running state over the two-entry pool. -/
def stTwo : RothRunState :=
  { fixing_fraction := 1 / 2, offset := 1 / 5, incumbent_obj := 0,
    incumbent_sol := [0], pool := poolTwo, mutation_calls := [],
    recomb_calls := [], stopped := false }

/-- A concrete Maravilha running state over the one-entry pool. -/
def stMarOne : MarRunState :=
  { submip_min := 0, submip_max := 13 / 20, incumbent_obj := 0,
    incumbent_sol := [0], pool := poolOne, calls := [], stopped := false }

end ORCS

namespace ORCS

/-! ## Basic facts about the comparison helpers -/

theorem better_irrefl (sense : Sense) (a : ℚ) : better sense a a = false := by
  cases sense <;> simp [better]

theorem better_asymm {sense : Sense} {a b : ℚ} (h : better sense a b = true) :
    better sense b a = false := by
  cases sense <;> simp_all [better] <;> linarith

theorem not_better_trans {sense : Sense} {a b c : ℚ}
    (h1 : better sense a b = false) (h2 : better sense b c = false) :
    better sense a c = false := by
  cases sense <;> simp_all [better] <;> linarith

/-! ## Sorting lemmas -/

theorem orderedInsertEntry_perm (sense : Sense) (e : Entry) (l : List Entry) :
    (orderedInsertEntry sense e l).Perm (e :: l) := by
  induction l with
  | nil => simp [orderedInsertEntry]
  | cons a l ih =>
    cases h : cmpEntry sense e a with
    | true => simp [orderedInsertEntry, h]
    | false =>
      simp only [orderedInsertEntry, h, Bool.false_eq_true, if_false]
      exact (ih.cons a).trans (List.Perm.swap e a l)

theorem sortEntries_perm (sense : Sense) (l : List Entry) :
    (sortEntries sense l).Perm l := by
  induction l with
  | nil => simp [sortEntries]
  | cons a l ih =>
    exact (orderedInsertEntry_perm sense a (sortEntries sense l)).trans (ih.cons a)

theorem sortEntries_length (sense : Sense) (l : List Entry) :
    (sortEntries sense l).length = l.length :=
  (sortEntries_perm sense l).length_eq

/-! ## A case analysis of `add_entry` -/

theorem add_entry_cases (p : SolutionPool) (s : List ℚ) (v : ℚ) :
    add_entry p s v = (false, p) ∨
    ∃ es,
      ((p.entries.length < p.max_size ∧ es = p.entries ++ [⟨s, v, p.next_age⟩]) ∨
        (¬ p.entries.length < p.max_size ∧
          ∃ wi wv, worstPair p.sense p.entries = some (wi, wv) ∧
            better p.sense v wv = true ∧
            es = p.entries.set wi ⟨s, v, p.next_age⟩)) ∧
      add_entry p s v =
        (true, { p with
                  entries := if p.sorted then sortEntries p.sense es else es,
                  next_age := p.next_age - 1 }) := by
  unfold add_entry
  cases hany : p.entries.any fun e => similar s e.solution with
  | true => left; simp [hany]
  | false =>
    simp only [hany, Bool.false_eq_true, if_false]
    by_cases hlen : p.entries.length < p.max_size
    · right
      refine ⟨p.entries ++ [⟨s, v, p.next_age⟩], Or.inl ⟨hlen, rfl⟩, ?_⟩
      simp [hlen]
    · cases hw : worstPair p.sense p.entries with
      | none => left; simp [hlen, hw]
      | some iw =>
        obtain ⟨wi, wv⟩ := iw
        by_cases hb : better p.sense v wv = true
        · right
          refine ⟨p.entries.set wi ⟨s, v, p.next_age⟩,
            Or.inr ⟨hlen, wi, wv, rfl, hb, rfl⟩, ?_⟩
          simp [hlen, hw, hb]
        · left; simp [hlen, hw, hb]

theorem add_entry_fields (p : SolutionPool) (s : List ℚ) (v : ℚ) :
    (add_entry p s v).2.max_size = p.max_size ∧
    (add_entry p s v).2.sense = p.sense ∧
    (add_entry p s v).2.sorted = p.sorted := by
  rcases add_entry_cases p s v with h | ⟨es, _, h⟩ <;> simp [h]

theorem add_entry_size_le (p : SolutionPool) (s : List ℚ) (v : ℚ)
    (h : p.entries.length ≤ p.max_size) :
    (add_entry p s v).2.entries.length ≤ p.max_size := by
  rcases add_entry_cases p s v with hc | ⟨es, hes, hc⟩
  · simp [hc, h]
  · rcases hes with ⟨hlt, rfl⟩ | ⟨hge, wi, wv, hw, hb, rfl⟩
    · cases hs : p.sorted <;>
        simp [hc, hs, sortEntries_length] <;> omega
    · cases hs : p.sorted <;>
        simp [hc, hs, sortEntries_length] <;> omega

/-- C2: for every sequence of `add_entry` calls on a pool whose size is
within its capacity, the number of stored entries never exceeds
`max_size`: `add_entry` appends only when the current size is strictly
below `max_size`, and otherwise at most overwrites an existing entry in
place. -/
theorem pool_size_bounded (pool : SolutionPool) (cands : List (List ℚ × ℚ))
    (h : pool.entries.length ≤ pool.max_size) :
    (run_adds pool cands).entries.length ≤ (run_adds pool cands).max_size := by
  induction cands generalizing pool with
  | nil => simpa [run_adds] using h
  | cons c cs ih =>
    have h1 := add_entry_size_le pool c.1 c.2 h
    have h2 := (add_entry_fields pool c.1 c.2).1
    simpa [run_adds] using ih ((add_entry pool c.1 c.2).2) (by rw [h2]; exact h1)

theorem pool_size_bounded_witness :
    (mk_pool Sense.Minimize 2 true).entries.length ≤
        (mk_pool Sense.Minimize 2 true).max_size ∧
      (run_adds (mk_pool Sense.Minimize 2 true)
          [([0], 0), ([1], 1), ([2], 2)]).entries.length ≤
        (run_adds (mk_pool Sense.Minimize 2 true)
          [([0], 0), ([1], 1), ([2], 2)]).max_size :=
  ⟨by decide, pool_size_bounded _ _ (by decide)⟩

/-- C3: a candidate whose solution is similar (every coordinate within
strictly less than `ε = 1e-5`) to some stored entry is rejected with no
mutation at all, no matter its objective value: the similarity scan decides
before any objective comparison is reached. -/
theorem add_entry_rejects_similar (pool : SolutionPool) (s : List ℚ) (v : ℚ)
    (h : ∃ e ∈ pool.entries,
      ((s.zip e.solution).all fun q => |q.1 - q.2| < THRESHOLD) = true) :
    add_entry pool s v = (false, pool) := by
  obtain ⟨e, he, hall⟩ := h
  have hsim : similar s e.solution = true := by
    simp only [similar, List.all_eq_true] at hall ⊢
    intro x hx
    have hx' := hall x hx
    simp only [decide_eq_true_eq] at hx'
    simp only [Bool.not_eq_true', decide_eq_false_iff_not, not_lt]
    linarith
  have hany : (pool.entries.any fun e => similar s e.solution) = true :=
    List.any_eq_true.mpr ⟨e, he, hsim⟩
  unfold add_entry
  simp [hany]

theorem add_entry_rejects_similar_witness :
    (∃ e ∈ poolOne.entries,
      ((([0] : List ℚ).zip e.solution).all fun q => |q.1 - q.2| < THRESHOLD)
        = true) ∧
    add_entry poolOne [0] (-5) = (false, poolOne) := by
  have h : ∃ e ∈ poolOne.entries,
      ((([0] : List ℚ).zip e.solution).all fun q => |q.1 - q.2| < THRESHOLD)
        = true := by
    norm_num [poolOne, add_entry, mk_pool, similar, THRESHOLD]
  exact ⟨h, add_entry_rejects_similar _ _ _ h⟩

/-! ## The worst-entry scan -/

theorem worstPair_cons_isSome (sense : Sense) (e : Entry) (l : List Entry) :
    ∃ wi wv, worstPair sense (e :: l) = some (wi, wv) := by
  cases h : worstPair sense l with
  | none => exact ⟨0, e.value, by simp [worstPair, h]⟩
  | some iw =>
    obtain ⟨i, wv⟩ := iw
    cases hb : better sense e.value wv with
    | true => exact ⟨i + 1, wv, by simp [worstPair, h, hb]⟩
    | false => exact ⟨0, e.value, by simp [worstPair, h, hb]⟩

theorem worstPair_eq_none {sense : Sense} {l : List Entry}
    (h : worstPair sense l = none) : l = [] := by
  cases l with
  | nil => rfl
  | cons a l =>
    obtain ⟨wi, wv, hw⟩ := worstPair_cons_isSome sense a l
    rw [h] at hw
    simp at hw

theorem worstPair_spec (sense : Sense) (l : List Entry) :
    ∀ wi wv, worstPair sense l = some (wi, wv) →
      wi < l.length ∧ (∃ e, l[wi]? = some e ∧ e.value = wv) ∧
        ∀ e ∈ l, better sense wv e.value = false := by
  induction l with
  | nil => intro wi wv h; simp [worstPair] at h
  | cons a l ih =>
    intro wi wv h
    cases hw : worstPair sense l with
    | none =>
      have hl : l = [] := worstPair_eq_none hw
      subst hl
      simp only [worstPair, Option.some.injEq, Prod.mk.injEq] at h
      obtain ⟨h1, h2⟩ := h
      subst h1
      subst h2
      refine ⟨by simp, ⟨a, by simp, rfl⟩, ?_⟩
      intro e he
      simp only [List.mem_singleton] at he
      subst he
      exact better_irrefl sense e.value
    | some iw =>
      obtain ⟨i, w⟩ := iw
      obtain ⟨hi, ⟨ew, hew, hewv⟩, hall⟩ := ih i w hw
      cases hb : better sense a.value w with
      | true =>
        simp only [worstPair, hw, hb, if_true, Option.some.injEq,
          Prod.mk.injEq] at h
        obtain ⟨h1, h2⟩ := h
        subst h1
        subst h2
        refine ⟨by simpa using Nat.succ_lt_succ hi, ⟨ew, by simpa using hew, hewv⟩, ?_⟩
        intro e he
        rcases List.mem_cons.mp he with he | he
        · subst he
          exact better_asymm hb
        · exact hall e he
      | false =>
        simp only [worstPair, hw, hb, Bool.false_eq_true, if_false,
          Option.some.injEq, Prod.mk.injEq] at h
        obtain ⟨h1, h2⟩ := h
        subst h1
        subst h2
        refine ⟨by simp, ⟨a, by simp, rfl⟩, ?_⟩
        intro e he
        rcases List.mem_cons.mp he with he | he
        · subst he
          exact better_irrefl sense e.value
        · exact not_better_trans hb (hall e he)

/-- C4: when the pool is full and the candidate is not similar to any
stored entry, `add_entry` inserts iff the candidate objective is strictly
better (per the pool sense) than the worst stored objective; in that case
it overwrites exactly the worst entry with the new solution, objective and
age (literally in place for an unsorted pool, up to the re-sort permutation
otherwise), and every objective retained afterwards is at least as good as
the old worst, so the worst retained objective never gets worse. -/
theorem full_pool_replacement (p : SolutionPool) (s : List ℚ) (v : ℚ)
    (hfull : p.entries.length = p.max_size) (hpos : 0 < p.max_size)
    (hnosim : (p.entries.any fun e => similar s e.solution) = false) :
    ∃ wi wv, worstPair p.sense p.entries = some (wi, wv) ∧
      ((add_entry p s v).1 = true ↔ better p.sense v wv = true) ∧
      ((add_entry p s v).1 = true →
        (add_entry p s v).2.entries.Perm
            (p.entries.set wi ⟨s, v, p.next_age⟩) ∧
        (p.sorted = false →
          (add_entry p s v).2.entries = p.entries.set wi ⟨s, v, p.next_age⟩) ∧
        ∀ e ∈ (add_entry p s v).2.entries, better p.sense wv e.value = false) := by
  have hlen : ¬ p.entries.length < p.max_size := by omega
  obtain ⟨wi, wv, hw⟩ : ∃ wi wv, worstPair p.sense p.entries = some (wi, wv) := by
    cases hent : p.entries with
    | nil => rw [hent] at hfull; simp at hfull; omega
    | cons a l => exact worstPair_cons_isSome p.sense a l
  obtain ⟨hwlt, ⟨ew, hew, hewv⟩, hall⟩ := worstPair_spec p.sense p.entries wi wv hw
  refine ⟨wi, wv, hw, ?_⟩
  cases hb : better p.sense v wv with
  | false =>
    have hc : add_entry p s v = (false, p) := by
      unfold add_entry
      simp [hnosim, hlen, hw, hb]
    rw [hc]
    simp
  | true =>
    have hc : add_entry p s v =
        (true, { p with
                  entries := if p.sorted
                    then sortEntries p.sense (p.entries.set wi ⟨s, v, p.next_age⟩)
                    else p.entries.set wi ⟨s, v, p.next_age⟩,
                  next_age := p.next_age - 1 }) := by
      unfold add_entry
      simp [hnosim, hlen, hw, hb]
    rw [hc]
    refine ⟨by simp, fun _ => ⟨?_, ?_, ?_⟩⟩
    · cases hs : p.sorted with
      | true => simpa [hs] using sortEntries_perm p.sense (p.entries.set wi ⟨s, v, p.next_age⟩)
      | false => simp [hs]
    · intro hs
      simp [hs]
    · intro e he
      simp only at he
      have he' : e ∈ p.entries.set wi ⟨s, v, p.next_age⟩ := by
        cases hs : p.sorted with
        | true =>
          rw [hs] at he
          exact (sortEntries_perm p.sense _).mem_iff.mp (by simpa using he)
        | false =>
          rw [hs] at he
          simpa using he
      rcases List.mem_or_eq_of_mem_set he' with he'' | he''
      · exact hall e he''
      · subst he''
        exact better_asymm hb

theorem full_pool_replacement_witness :
    poolFull1.entries.length = poolFull1.max_size ∧ 0 < poolFull1.max_size ∧
    (poolFull1.entries.any fun e => similar [1] e.solution) = false ∧
    (∃ wi wv, worstPair poolFull1.sense poolFull1.entries = some (wi, wv) ∧
      ((add_entry poolFull1 [1] 5).1 = true ↔ better poolFull1.sense 5 wv = true) ∧
      ((add_entry poolFull1 [1] 5).1 = true →
        (add_entry poolFull1 [1] 5).2.entries.Perm
            (poolFull1.entries.set wi ⟨[1], 5, poolFull1.next_age⟩) ∧
        (poolFull1.sorted = false →
          (add_entry poolFull1 [1] 5).2.entries
            = poolFull1.entries.set wi ⟨[1], 5, poolFull1.next_age⟩) ∧
        ∀ e ∈ (add_entry poolFull1 [1] 5).2.entries,
          better poolFull1.sense wv e.value = false)) := by
  have h1 : poolFull1.entries.length = poolFull1.max_size := by
    simp [poolFull1, add_entry, mk_pool]
  have h2 : 0 < poolFull1.max_size := by
    simp [poolFull1, add_entry, mk_pool]
  have h3 : (poolFull1.entries.any fun e => similar [1] e.solution) = false := by
    norm_num [poolFull1, add_entry, mk_pool, similar, THRESHOLD, abs_of_nonneg]
  exact ⟨h1, h2, h3, full_pool_replacement poolFull1 [1] 5 h1 h2 h3⟩

/-! ## The sort comparator and the order the sorted pool realises -/

theorem THRESHOLD_pos : 0 < THRESHOLD := by norm_num [THRESHOLD]

theorem cmpEntry_asymm {sense : Sense} {e1 e2 : Entry}
    (h : cmpEntry sense e1 e2 = true) : cmpEntry sense e2 e1 = false := by
  unfold cmpEntry at h ⊢
  by_cases hd : |e1.value - e2.value| < THRESHOLD
  · have hd' : |e2.value - e1.value| < THRESHOLD := by rwa [abs_sub_comm]
    simp only [hd, if_true] at h
    simp only [hd', if_true]
    simp only [decide_eq_true_eq] at h
    simp only [decide_eq_false_iff_not]
    omega
  · have hd' : ¬ |e2.value - e1.value| < THRESHOLD := by rwa [abs_sub_comm]
    simp only [hd, if_false] at h
    simp only [hd', if_false]
    cases sense <;>
      simp only [decide_eq_true_eq] at h <;>
      simp only [decide_eq_false_iff_not] <;>
      linarith

theorem orderedInsertEntry_head (sense : Sense) (e : Entry) (l : List Entry) :
    (orderedInsertEntry sense e l).head? = some e ∨
    (orderedInsertEntry sense e l).head? = l.head? := by
  cases l with
  | nil => left; rfl
  | cons a l =>
    cases hc : cmpEntry sense e a with
    | true => left; simp [orderedInsertEntry, hc]
    | false => right; simp [orderedInsertEntry, hc]

theorem chain'_orderedInsertEntry (sense : Sense) (e : Entry) (l : List Entry)
    (h : List.Chain' (fun p q => cmpEntry sense q p = false) l) :
    List.Chain' (fun p q => cmpEntry sense q p = false)
      (orderedInsertEntry sense e l) := by
  induction l with
  | nil => simp [orderedInsertEntry]
  | cons a l ih =>
    rw [List.chain'_cons'] at h
    obtain ⟨hhead, htail⟩ := h
    cases hc : cmpEntry sense e a with
    | true =>
      simp only [orderedInsertEntry, hc, if_true]
      rw [List.chain'_cons']
      refine ⟨?_, List.chain'_cons'.mpr ⟨hhead, htail⟩⟩
      intro y hy
      simp only [List.head?_cons, Option.mem_def, Option.some.injEq] at hy
      subst hy
      exact cmpEntry_asymm hc
    | false =>
      simp only [orderedInsertEntry, hc, Bool.false_eq_true, if_false]
      rw [List.chain'_cons']
      refine ⟨?_, ih htail⟩
      intro y hy
      rcases orderedInsertEntry_head sense e l with hh | hh
      · rw [hh] at hy
        simp only [Option.mem_def, Option.some.injEq] at hy
        subst hy
        exact hc
      · rw [hh] at hy
        exact hhead y hy

theorem chain'_sortEntries (sense : Sense) (l : List Entry) :
    List.Chain' (fun p q => cmpEntry sense q p = false) (sortEntries sense l) := by
  induction l with
  | nil => simp [sortEntries]
  | cons a l ih => exact chain'_orderedInsertEntry sense a _ ih

theorem cmpEntry_false_sortedAdjacent {sense : Sense} {p q : Entry}
    (h : cmpEntry sense q p = false) : sortedAdjacent sense p q := by
  unfold cmpEntry at h
  unfold sortedAdjacent
  by_cases hd : |p.value - q.value| < THRESHOLD
  · have hd' : |q.value - p.value| < THRESHOLD := by rwa [abs_sub_comm]
    simp only [hd', if_true] at h
    simp only [hd, if_true]
    simp only [decide_eq_false_iff_not] at h
    omega
  · have hd' : ¬ |q.value - p.value| < THRESHOLD := by rwa [abs_sub_comm]
    simp only [hd', if_false] at h
    simp only [hd, if_false]
    have hne : p.value ≠ q.value := by
      intro heq
      exact hd (by simp [heq, sub_self, abs_zero, THRESHOLD_pos])
    cases sense <;>
      simp only [decide_eq_false_iff_not, not_lt] at h <;>
      simp only [better, decide_eq_true_eq] <;>
      [exact lt_of_le_of_ne h hne; exact lt_of_le_of_ne h (Ne.symm hne)]

/-- C5 (amended): after every successful `add_entry` on a `sorted` pool,
adjacent entries whose objectives differ by at least `ε = 1e-5` stand in
strictly-better-first order per the pool sense, and adjacent entries whose
objectives are within `ε` stand in ascending age order (ages are assigned
from a decrementing counter, so more recently inserted entries sort
first).  When the age tie-break applies, the earlier entry may be
within-`ε` worse than the later one. -/
theorem sorted_pool_adjacent (pool : SolutionPool) (s : List ℚ) (v : ℚ)
    (hs : pool.sorted = true) (hins : (add_entry pool s v).1 = true) :
    List.Chain' (sortedAdjacent pool.sense) (add_entry pool s v).2.entries := by
  rcases add_entry_cases pool s v with hc | ⟨es, _, hc⟩
  · rw [hc] at hins
    simp at hins
  · rw [hc]
    simp only [hs, if_true]
    exact List.Chain'.imp (fun a b h => cmpEntry_false_sortedAdjacent h)
      (chain'_sortEntries pool.sense es)

theorem sorted_pool_adjacent_witness :
    ((add_entry (mk_pool Sense.Minimize 3 true) [0] 0).2.sorted = true) ∧
    ((add_entry (add_entry (mk_pool Sense.Minimize 3 true) [0] 0).2 [1] 1).1
      = true) ∧
    List.Chain'
      (sortedAdjacent (add_entry (mk_pool Sense.Minimize 3 true) [0] 0).2.sense)
      (add_entry (add_entry (mk_pool Sense.Minimize 3 true) [0] 0).2
        [1] 1).2.entries := by
  have h1 : ((add_entry (mk_pool Sense.Minimize 3 true) [0] 0).2.sorted = true) := by
    simp [add_entry, mk_pool]
  have h2 : ((add_entry (add_entry (mk_pool Sense.Minimize 3 true) [0] 0).2
      [1] 1).1 = true) := by
    norm_num [add_entry, mk_pool, similar, sortEntries, orderedInsertEntry,
      cmpEntry, THRESHOLD, ULLONG_MAX, abs_of_nonneg]
  exact ⟨h1, h2, sorted_pool_adjacent _ [1] 1 h1 h2⟩

/-- C5 counterexample: on a sorted minimising pool, insert objective `0`
(age `ULLONG_MAX`) and then objective `1e-6` (age `ULLONG_MAX - 1`); the
two objectives are within `ε`, so the age tie-break puts the younger,
within-`ε`-worse entry `1e-6` first, refuting "for all adjacent pairs, the
earlier entry is better-or-equal by the pool sense". -/
theorem sorted_pool_adjacent_counterexample :
    ((add_entry (add_entry (mk_pool Sense.Minimize 2 true) [0] 0).2
        [1] (1 / 1000000)).1 = true) ∧
    ((add_entry (add_entry (mk_pool Sense.Minimize 2 true) [0] 0).2
        [1] (1 / 1000000)).2.entries.map Entry.value = [1 / 1000000, 0]) ∧
    ¬ ((1 : ℚ) / 1000000 ≤ 0) := by
  norm_num [add_entry, mk_pool, similar, sortEntries, orderedInsertEntry,
    cmpEntry, THRESHOLD, ULLONG_MAX, abs_of_nonneg]

/-! ## Invariant machinery for the heuristic runs -/

theorem foldl_invariant {α β : Type _} (f : α → β → α) (Q : α → Prop)
    (hf : ∀ a b, Q a → Q (f a b)) :
    ∀ (l : List β) (a : α), Q a → Q (l.foldl f a) := by
  intro l
  induction l with
  | nil => intro a ha; simpa using ha
  | cons b l ih => intro a ha; simpa using ih (f a b) (hf a b ha)

theorem recomb_loop_invariant (P : RothbergParams) (tl : ℚ) (bins : List ℕ)
    (ca : ℕ) (evs : ℕ → RecombEvent) (Q : RothRunState → Prop)
    (hq : ∀ i ev st, Q st → Q (recomb_iter P tl bins ca i ev st)) :
    ∀ (l : List ℕ) (st : RothRunState), Q st →
      Q (recomb_loop P tl bins ca evs l st) := by
  intro l
  induction l with
  | nil => intro st h; simpa [recomb_loop] using h
  | cons i rest ih =>
    intro st h
    simpa [recomb_loop] using ih _ (hq i (evs i) st h)

/-- Structural invariant principle for `rothberg_run`: any property
preserved by both iteration kinds, by the offset update and by the break
reset holds of the final state. -/
theorem rothberg_run_invariant (P : RothbergParams) (tl : ℚ) (bins : List ℕ)
    (f off : ℚ) (inp : RothbergInput) (Q : RothRunState → Prop)
    (hmut : ∀ ev st, Q st → Q (mutation_iter P tl ev st))
    (hrec : ∀ ca i ev st, Q st → Q (recomb_iter P tl bins ca i ev st))
    (hoff : ∀ st : RothRunState, Q st →
      Q { st with offset := max P.offset_minimum ((1 - P.offset_reduction) * st.offset) })
    (hstop : ∀ st : RothRunState, Q st → Q { st with stopped := false })
    (hst0 : Q { fixing_fraction := f, offset := off,
                incumbent_obj := inp.incumbent_obj,
                incumbent_sol := inp.incumbent_sol,
                pool := inp.pool, mutation_calls := [], recomb_calls := [],
                stopped := false }) :
    Q (rothberg_run P tl bins f off inp) := by
  have h1 : ∀ st, Q st → Q (mutation_phase P tl inp.mut_events st) := by
    intro st h
    exact foldl_invariant _ Q (fun a b ha => hmut (inp.mut_events b) a ha) _ st h
  have h2 : ∀ st, Q st →
      Q (recomb_loop P tl bins (inp.rand_consider % P.num_recombinations)
          inp.rec_events (List.range P.num_recombinations) st) := by
    intro st h
    exact recomb_loop_invariant P tl bins _ inp.rec_events Q
      (fun i ev st hs => hrec _ i ev st hs) _ st h
  unfold rothberg_run
  dsimp only
  split
  · split
    · apply h2
      apply hstop
      apply hoff
      apply h1
      exact hst0
    · apply hoff
      apply h1
      exact hst0
  · split
    · apply h2
      apply hstop
      exact hst0
    · exact hst0

/-! ## C1: incumbent non-regression -/

theorem IncumbentOK_refl (sense : Sense) (obj0 : ℚ) (sol0 : List ℚ) :
    IncumbentOK sense obj0 sol0 obj0 sol0 := Or.inl ⟨rfl, rfl⟩

theorem IncumbentOK_update {sense : Sense} {obj0 : ℚ} {sol0 : List ℚ}
    {obj : ℚ} {sol : List ℚ} {v : ℚ} (s : List ℚ)
    (h : IncumbentOK sense obj0 sol0 obj sol)
    (himp : improves sense v obj = true) :
    IncumbentOK sense obj0 sol0 v s := by
  right
  rcases h with ⟨rfl, rfl⟩ | h
  · exact himp
  · cases sense <;>
      simp only [improves, decide_eq_true_eq] at himp h ⊢ <;>
      linarith [THRESHOLD_pos.le]

theorem IncumbentOK_notWorse {sense : Sense} {obj0 : ℚ} {sol0 : List ℚ}
    {obj : ℚ} {sol : List ℚ} (h : IncumbentOK sense obj0 sol0 obj sol) :
    notWorse sense obj obj0 := by
  rcases h with ⟨rfl, _⟩ | h
  · cases sense <;> simp [notWorse]
  · cases sense <;>
      simp only [improves, decide_eq_true_eq, notWorse] at h ⊢ <;>
      linarith [THRESHOLD_pos.le]

theorem harvest_IncumbentOK {sense : Sense} {obj0 : ℚ} {sol0 : List ℚ}
    (o : SubmipOutcome) (st : RothRunState)
    (h : IncumbentOK sense obj0 sol0 st.incumbent_obj st.incumbent_sol) :
    IncumbentOK sense obj0 sol0 (harvest sense o st).1.incumbent_obj
      (harvest sense o st).1.incumbent_sol := by
  unfold harvest
  split
  · split
    · exact IncumbentOK_update _ h (by assumption)
    · exact h
  · exact h

theorem mutation_iter_IncumbentOK {P : RothbergParams} {tl : ℚ}
    {ev : MutationEvent} {obj0 : ℚ} {sol0 : List ℚ} (st : RothRunState)
    (h : IncumbentOK P.sense obj0 sol0 st.incumbent_obj st.incumbent_sol) :
    IncumbentOK P.sense obj0 sol0 (mutation_iter P tl ev st).incumbent_obj
      (mutation_iter P tl ev st).incumbent_sol := by
  unfold mutation_iter
  dsimp only
  split
  · exact h
  split
  · exact h
  have hh : IncumbentOK P.sense obj0 sol0
      (harvest P.sense ev.outcome
        { st with mutation_calls := st.mutation_calls ++
          [{ mip_start := none, time_limit := tl, nodes_limit := ULLONG_MAX,
             stagnation_limit := P.submip_nodes_unsuccessful }] }).1.incumbent_obj
      (harvest P.sense ev.outcome
        { st with mutation_calls := st.mutation_calls ++
          [{ mip_start := none, time_limit := tl, nodes_limit := ULLONG_MAX,
             stagnation_limit := P.submip_nodes_unsuccessful }] }).1.incumbent_sol :=
    harvest_IncumbentOK ev.outcome _ h
  split
  · exact hh
  split
  · exact hh
  · exact hh

theorem recomb_iter_IncumbentOK {P : RothbergParams} {tl : ℚ} {bins : List ℕ}
    {ca i : ℕ} {ev : RecombEvent} {obj0 : ℚ} {sol0 : List ℚ}
    (st : RothRunState)
    (h : IncumbentOK P.sense obj0 sol0 st.incumbent_obj st.incumbent_sol) :
    IncumbentOK P.sense obj0 sol0
      (recomb_iter P tl bins ca i ev st).incumbent_obj
      (recomb_iter P tl bins ca i ev st).incumbent_sol := by
  unfold recomb_iter
  dsimp only
  split
  · exact h
  split
  · exact h
  exact harvest_IncumbentOK ev.outcome _ h

theorem maravilha_iter_IncumbentOK {P : MaravilhaParams} {tl : ℚ}
    {ev : MaravilhaEvent} {obj0 : ℚ} {sol0 : List ℚ} (st : MarRunState)
    (h : IncumbentOK P.sense obj0 sol0 st.incumbent_obj st.incumbent_sol) :
    IncumbentOK P.sense obj0 sol0 (maravilha_iter P tl ev st).incumbent_obj
      (maravilha_iter P tl ev st).incumbent_sol := by
  have hmar : ∀ st0 : MarRunState,
      IncumbentOK P.sense obj0 sol0 st0.incumbent_obj st0.incumbent_sol →
      IncumbentOK P.sense obj0 sol0
        (mar_harvest P.sense ev.outcome st0).1.incumbent_obj
        (mar_harvest P.sense ev.outcome st0).1.incumbent_sol := by
    intro st0 h0
    unfold mar_harvest
    split
    · split
      · exact IncumbentOK_update _ h0 (by assumption)
      · exact h0
    · exact h0
  unfold maravilha_iter
  dsimp only
  split
  · exact h
  split
  · exact h
  have hh := hmar { st with calls := st.calls ++
    [{ mip_start := some st.incumbent_sol, time_limit := tl,
       nodes_limit := ULLONG_MAX,
       stagnation_limit := P.submip_nodes_unsuccessful }] } h
  split
  · exact hh
  split
  · exact hh
  · exact hh

/-- C1: after any heuristic run (Rothberg or Maravilha), the incumbent
reported back via `setSolution` is never worse than the incumbent read at
the start of the invocation: the running incumbent is replaced only by a
candidate strictly better by more than the `1e-5` threshold with respect
to the objective sense, so the reported pair is either exactly the
incumbent passed in or one improving on it by more than the threshold. -/
theorem incumbent_non_regression
    (P : RothbergParams) (tl : ℚ) (bins : List ℕ) (f off : ℚ)
    (inp : RothbergInput) (Q : MaravilhaParams) (tlm mn mx : ℚ)
    (pool : SolutionPool) (iobj : ℚ) (isol : List ℚ)
    (evs : ℕ → MaravilhaEvent) :
    (IncumbentOK P.sense inp.incumbent_obj inp.incumbent_sol
        (rothberg_run P tl bins f off inp).incumbent_obj
        (rothberg_run P tl bins f off inp).incumbent_sol ∧
      notWorse P.sense (rothberg_run P tl bins f off inp).incumbent_obj
        inp.incumbent_obj) ∧
    (IncumbentOK Q.sense iobj isol
        (maravilha_run Q tlm mn mx pool iobj isol evs).incumbent_obj
        (maravilha_run Q tlm mn mx pool iobj isol evs).incumbent_sol ∧
      notWorse Q.sense (maravilha_run Q tlm mn mx pool iobj isol evs).incumbent_obj
        iobj) := by
  have hr : IncumbentOK P.sense inp.incumbent_obj inp.incumbent_sol
      (rothberg_run P tl bins f off inp).incumbent_obj
      (rothberg_run P tl bins f off inp).incumbent_sol := by
    apply rothberg_run_invariant P tl bins f off inp
      (fun st => IncumbentOK P.sense inp.incumbent_obj inp.incumbent_sol
        st.incumbent_obj st.incumbent_sol)
    · exact fun ev st h => mutation_iter_IncumbentOK st h
    · exact fun ca i ev st h => recomb_iter_IncumbentOK st h
    · exact fun st h => h
    · exact fun st h => h
    · exact IncumbentOK_refl _ _ _
  have hm : IncumbentOK Q.sense iobj isol
      (maravilha_run Q tlm mn mx pool iobj isol evs).incumbent_obj
      (maravilha_run Q tlm mn mx pool iobj isol evs).incumbent_sol := by
    unfold maravilha_run
    dsimp only
    split
    · apply foldl_invariant _
        (fun st : MarRunState => IncumbentOK Q.sense iobj isol
          st.incumbent_obj st.incumbent_sol)
        (fun a b ha => maravilha_iter_IncumbentOK a ha)
      exact IncumbentOK_refl _ _ _
    · exact IncumbentOK_refl _ _ _
  exact ⟨⟨hr, IncumbentOK_notWorse hr⟩, ⟨hm, IncumbentOK_notWorse hm⟩⟩

/-! ## Field bookkeeping for the iteration bodies -/

theorem harvest_fields (sense : Sense) (o : SubmipOutcome) (st : RothRunState) :
    (harvest sense o st).2
        = (o.found && improves sense o.value st.incumbent_obj) ∧
    (harvest sense o st).1.fixing_fraction = st.fixing_fraction ∧
    (harvest sense o st).1.offset = st.offset ∧
    (harvest sense o st).1.mutation_calls = st.mutation_calls ∧
    (harvest sense o st).1.recomb_calls = st.recomb_calls ∧
    (harvest sense o st).1.stopped = st.stopped := by
  unfold harvest
  cases hf : o.found with
  | false => simp
  | true =>
    cases himp : improves sense o.value st.incumbent_obj with
    | false => simp [himp]
    | true => simp [himp]

theorem mutation_iter_offset (P : RothbergParams) (tl : ℚ)
    (ev : MutationEvent) (st : RothRunState) :
    (mutation_iter P tl ev st).offset = st.offset := by
  unfold mutation_iter
  dsimp only
  split
  · rfl
  split
  · rfl
  obtain ⟨-, -, hoff, -, -, -⟩ := harvest_fields P.sense ev.outcome
    { st with mutation_calls := st.mutation_calls ++
      [{ mip_start := none, time_limit := tl, nodes_limit := ULLONG_MAX,
         stagnation_limit := P.submip_nodes_unsuccessful }] }
  split
  · exact hoff
  split
  · simpa using hoff
  · simpa using hoff

theorem recomb_iter_pre (P : RothbergParams) (tl : ℚ) (bins : List ℕ)
    (ca i : ℕ) (ev : RecombEvent) (st : RothRunState) :
    (recomb_iter P tl bins ca i ev st).fixing_fraction = st.fixing_fraction ∧
    (recomb_iter P tl bins ca i ev st).offset = st.offset ∧
    (recomb_iter P tl bins ca i ev st).mutation_calls = st.mutation_calls := by
  unfold recomb_iter
  dsimp only
  split
  · exact ⟨rfl, rfl, rfl⟩
  split
  · exact ⟨rfl, rfl, rfl⟩
  split
  · obtain ⟨-, hfix, hoff, hmc, -, -⟩ := harvest_fields P.sense ev.outcome _
    exact ⟨by simpa using hfix, by simpa using hoff, by simpa using hmc⟩
  · obtain ⟨-, hfix, hoff, hmc, -, -⟩ := harvest_fields P.sense ev.outcome _
    exact ⟨by simpa using hfix, by simpa using hoff, by simpa using hmc⟩

/-! ## C7: adaptation of the fixing fraction and the offset -/

/-- C7: in a live mutation iteration whose sub-problem did not yield an
improved incumbent, the fixing fraction decreases by `offset` (floored at
0) when the sub-problem status is proven `Optimal` or `Infeasible`, and
increases by `offset` (capped at 1) otherwise; and whatever the events
are, after a run whose mutation phase was entered (pool non-empty) the
offset has been updated exactly once, to
`max offset_minimum ((1 - offset_reduction) * offset)`. -/
theorem fixing_fraction_adaptation (P : RothbergParams) (tl : ℚ)
    (bins : List ℕ) (ev : MutationEvent) (st : RothRunState)
    (hstop : st.stopped = false) (htimer : ev.timer_expired = false)
    (himp : (ev.outcome.found &&
      improves P.sense ev.outcome.value st.incumbent_obj) = false) :
    ((mutation_iter P tl ev st).fixing_fraction =
      if ev.outcome.status = Status.Optimal ∨
          ev.outcome.status = Status.Infeasible
      then max 0 (st.fixing_fraction - st.offset)
      else min 1 (st.fixing_fraction + st.offset)) ∧
    (∀ (f off : ℚ) (inp : RothbergInput), 1 ≤ inp.pool.entries.length →
      (rothberg_run P tl bins f off inp).offset =
        max P.offset_minimum ((1 - P.offset_reduction) * off)) := by
  constructor
  · unfold mutation_iter
    rw [if_neg (by rw [hstop]; exact Bool.false_ne_true)]
    rw [if_neg (by rw [htimer]; exact Bool.false_ne_true)]
    dsimp only
    obtain ⟨h2, hfix, hoff, -, -, -⟩ := harvest_fields P.sense ev.outcome
      { st with mutation_calls := st.mutation_calls ++
        [{ mip_start := none, time_limit := tl, nodes_limit := ULLONG_MAX,
           stagnation_limit := P.submip_nodes_unsuccessful }] }
    simp only at h2
    rw [himp] at h2
    rw [if_neg (by rw [h2]; exact Bool.false_ne_true)]
    split
    · simp only
      rw [hfix, hoff]
    · simp only
      rw [hfix, hoff]
  · intro f off inp hpool
    have hmut : (mutation_phase P tl inp.mut_events
        { fixing_fraction := f, offset := off,
          incumbent_obj := inp.incumbent_obj,
          incumbent_sol := inp.incumbent_sol, pool := inp.pool,
          mutation_calls := [], recomb_calls := [], stopped := false }).offset
        = off := by
      apply foldl_invariant _ (fun st : RothRunState => st.offset = off)
      · intro a b ha
        rw [mutation_iter_offset]
        exact ha
      · rfl
    have hrec : ∀ (l : List ℕ) (st : RothRunState),
        st.offset = max P.offset_minimum ((1 - P.offset_reduction) * off) →
        (recomb_loop P tl bins (inp.rand_consider % P.num_recombinations)
          inp.rec_events l st).offset
          = max P.offset_minimum ((1 - P.offset_reduction) * off) := by
      intro l st h
      exact recomb_loop_invariant P tl bins _ inp.rec_events
        (fun st => st.offset = max P.offset_minimum
          ((1 - P.offset_reduction) * off))
        (fun i ev st hs => by
          dsimp only
          dsimp only at hs
          rw [(recomb_iter_pre P tl bins
            (inp.rand_consider % P.num_recombinations) i ev st).2.1]
          exact hs)
        l st h
    unfold rothberg_run
    dsimp only
    rw [if_pos hpool]
    split
    · apply hrec
      dsimp only
      rw [hmut]
    · dsimp only
      rw [hmut]

theorem fixing_fraction_adaptation_witness :
    stOne.stopped = false ∧ mutEvNone.timer_expired = false ∧
    ((mutEvNone.outcome.found &&
      improves rothP1.sense mutEvNone.outcome.value stOne.incumbent_obj)
        = false) ∧
    ((mutation_iter rothP1 1 mutEvNone stOne).fixing_fraction =
      if mutEvNone.outcome.status = Status.Optimal ∨
          mutEvNone.outcome.status = Status.Infeasible
      then max 0 (stOne.fixing_fraction - stOne.offset)
      else min 1 (stOne.fixing_fraction + stOne.offset)) ∧
    (1 ≤ inpOne.pool.entries.length) ∧
    (rothberg_run rothP1 1 [] (1 / 2) (1 / 5) inpOne).offset =
      max rothP1.offset_minimum ((1 - rothP1.offset_reduction) * (1 / 5)) := by
  have h1 : stOne.stopped = false := rfl
  have h2 : mutEvNone.timer_expired = false := rfl
  have h3 : (mutEvNone.outcome.found &&
      improves rothP1.sense mutEvNone.outcome.value stOne.incumbent_obj)
        = false := by
    simp [mutEvNone, evNone]
  have h4 : (1 : ℕ) ≤ inpOne.pool.entries.length := by
    simp [inpOne, poolOne, add_entry, mk_pool]
  have hth := fixing_fraction_adaptation rothP1 1 [] mutEvNone stOne h1 h2 h3
  exact ⟨h1, h2, h3, hth.1, h4, hth.2 (1 / 2) (1 / 5) inpOne h4⟩

/-! ## C8: the adaptive parameters stay in range -/

theorem mutation_iter_RothParamOK (P : RothbergParams) (tl : ℚ)
    (ev : MutationEvent) (st : RothRunState) (h : RothParamOK st) :
    RothParamOK (mutation_iter P tl ev st) := by
  obtain ⟨hf0, hf1, ho0, ho1⟩ := h
  unfold mutation_iter
  dsimp only
  split
  · exact ⟨hf0, hf1, ho0, ho1⟩
  split
  · exact ⟨hf0, hf1, ho0, ho1⟩
  obtain ⟨-, hfix, hoff, -, -, -⟩ := harvest_fields P.sense ev.outcome
    { st with mutation_calls := st.mutation_calls ++
      [{ mip_start := none, time_limit := tl, nodes_limit := ULLONG_MAX,
         stagnation_limit := P.submip_nodes_unsuccessful }] }
  split
  · exact ⟨by rw [hfix]; exact hf0, by rw [hfix]; exact hf1,
      by rw [hoff]; exact ho0, by rw [hoff]; exact ho1⟩
  split
  · refine ⟨le_max_left _ _, ?_, ?_, ?_⟩ <;> dsimp only
    · refine max_le zero_le_one ?_
      rw [hfix, hoff]
      dsimp only
      linarith
    · rw [hoff]; exact ho0
    · rw [hoff]; exact ho1
  · refine ⟨?_, min_le_left _ _, ?_, ?_⟩ <;> dsimp only
    · refine le_min zero_le_one ?_
      rw [hfix, hoff]
      dsimp only
      linarith
    · rw [hoff]; exact ho0
    · rw [hoff]; exact ho1

theorem recomb_iter_RothParamOK (P : RothbergParams) (tl : ℚ)
    (bins : List ℕ) (ca i : ℕ) (ev : RecombEvent) (st : RothRunState)
    (h : RothParamOK st) : RothParamOK (recomb_iter P tl bins ca i ev st) := by
  obtain ⟨hfix, hoff, -⟩ := recomb_iter_pre P tl bins ca i ev st
  exact ⟨by rw [hfix]; exact h.1, by rw [hfix]; exact h.2.1,
    by rw [hoff]; exact h.2.2.1, by rw [hoff]; exact h.2.2.2⟩

theorem rothberg_run_RothParamOK (P : RothbergParams) (tl : ℚ)
    (bins : List ℕ) (f off : ℚ) (inp : RothbergInput)
    (hred0 : 0 ≤ P.offset_reduction) (hred1 : P.offset_reduction ≤ 1)
    (hmin0 : 0 ≤ P.offset_minimum) (hmin1 : P.offset_minimum ≤ 1)
    (hf0 : 0 ≤ f) (hf1 : f ≤ 1) (ho0 : 0 ≤ off) (ho1 : off ≤ 1) :
    RothParamOK (rothberg_run P tl bins f off inp) := by
  apply rothberg_run_invariant P tl bins f off inp RothParamOK
  · exact fun ev st h => mutation_iter_RothParamOK P tl ev st h
  · exact fun ca i ev st h => recomb_iter_RothParamOK P tl bins ca i ev st h
  · intro st h
    obtain ⟨h1, h2, h3, h4⟩ := h
    refine ⟨h1, h2, le_trans hmin0 (le_max_left _ _), max_le hmin1 ?_⟩
    nlinarith
  · exact fun st h => h
  · exact ⟨hf0, hf1, ho0, ho1⟩

theorem mar_harvest_window (sense : Sense) (o : SubmipOutcome)
    (st : MarRunState) :
    (mar_harvest sense o st).1.submip_min = st.submip_min ∧
    (mar_harvest sense o st).1.submip_max = st.submip_max ∧
    (mar_harvest sense o st).1.stopped = st.stopped ∧
    (mar_harvest sense o st).2
      = (o.found && improves sense o.value st.incumbent_obj) := by
  unfold mar_harvest
  cases hf : o.found with
  | false => simp
  | true =>
    cases himp : improves sense o.value st.incumbent_obj with
    | false => simp [himp]
    | true => simp [himp]

theorem maravilha_iter_MarParamOK (P : MaravilhaParams) (tl : ℚ)
    (ev : MaravilhaEvent) (st : MarRunState)
    (ho0 : 0 ≤ P.offset) (ho1 : P.offset ≤ 1) (h : MarParamOK st) :
    MarParamOK (maravilha_iter P tl ev st) := by
  obtain ⟨h0, h1, h2⟩ := h
  unfold maravilha_iter
  dsimp only
  split
  · exact ⟨h0, h1, h2⟩
  split
  · exact ⟨h0, h1, h2⟩
  obtain ⟨hmn, hmx, -, -⟩ := mar_harvest_window P.sense ev.outcome
    { st with calls := st.calls ++
      [{ mip_start := some st.incumbent_sol, time_limit := tl,
         nodes_limit := ULLONG_MAX,
         stagnation_limit := P.submip_nodes_unsuccessful }] }
  split
  · exact ⟨by rw [hmn]; exact h0, by rw [hmn, hmx]; exact h1,
      by rw [hmx]; exact h2⟩
  split
  · refine ⟨?_, ?_, ?_⟩ <;> dsimp only
    · rw [hmn, hmx]
      dsimp only
      nlinarith
    · rw [hmn, hmx]
      dsimp only
      nlinarith
    · rw [hmx]; exact h2
  · refine ⟨?_, ?_, ?_⟩ <;> dsimp only
    · rw [hmn]; exact h0
    · rw [hmn, hmx]
      dsimp only
      nlinarith
    · rw [hmn, hmx]
      dsimp only
      nlinarith

theorem maravilha_run_MarParamOK (P : MaravilhaParams) (tl : ℚ)
    (mn mx : ℚ) (pool : SolutionPool) (iobj : ℚ) (isol : List ℚ)
    (evs : ℕ → MaravilhaEvent)
    (ho0 : 0 ≤ P.offset) (ho1 : P.offset ≤ 1)
    (h0 : 0 ≤ mn) (h1 : mn ≤ mx) (h2 : mx ≤ 1) :
    MarParamOK (maravilha_run P tl mn mx pool iobj isol evs) := by
  unfold maravilha_run
  dsimp only
  split
  · apply foldl_invariant _ MarParamOK
      (fun a b ha => maravilha_iter_MarParamOK P tl (evs b) a ho0 ho1 ha)
    exact ⟨h0, h1, h2⟩
  · exact ⟨h0, h1, h2⟩

/-- C8: with initial values in range and the adaptation offsets in
`[0, 1]`, the adaptive parameters stay in range at all times: every
mutation iteration keeps `fixing_fraction ∈ [0, 1]` (and the offset in
range), every Maravilha iteration keeps `0 ≤ submip_min ≤ submip_max ≤ 1`,
and both bounds persist across any number of whole heuristic
invocations. -/
theorem adaptive_parameters_in_range
    (P : RothbergParams) (tl : ℚ) (bins : List ℕ)
    (Q : MaravilhaParams) (tlm : ℚ)
    (hred0 : 0 ≤ P.offset_reduction) (hred1 : P.offset_reduction ≤ 1)
    (hmin0 : 0 ≤ P.offset_minimum) (hmin1 : P.offset_minimum ≤ 1)
    (hoq0 : 0 ≤ Q.offset) (hoq1 : Q.offset ≤ 1) :
    (∀ ev st, RothParamOK st → RothParamOK (mutation_iter P tl ev st)) ∧
    (∀ ev st, MarParamOK st → MarParamOK (maravilha_iter Q tlm ev st)) ∧
    (∀ (invs : List RothbergInput) (f off : ℚ),
      0 ≤ f → f ≤ 1 → 0 ≤ off → off ≤ 1 →
      0 ≤ (rothberg_many P tl bins invs f off).1 ∧
      (rothberg_many P tl bins invs f off).1 ≤ 1 ∧
      0 ≤ (rothberg_many P tl bins invs f off).2 ∧
      (rothberg_many P tl bins invs f off).2 ≤ 1) ∧
    (∀ (invs : List MaravilhaInput) (mn mx : ℚ),
      0 ≤ mn → mn ≤ mx → mx ≤ 1 →
      0 ≤ (maravilha_many Q tlm invs mn mx).1 ∧
      (maravilha_many Q tlm invs mn mx).1 ≤ (maravilha_many Q tlm invs mn mx).2 ∧
      (maravilha_many Q tlm invs mn mx).2 ≤ 1) := by
  refine ⟨fun ev st h => mutation_iter_RothParamOK P tl ev st h,
    fun ev st h => maravilha_iter_MarParamOK Q tlm ev st hoq0 hoq1 h,
    ?_, ?_⟩
  · intro invs f off hf0 hf1 ho0 ho1
    have key : ∀ fo : ℚ × ℚ,
        (0 ≤ fo.1 ∧ fo.1 ≤ 1 ∧ 0 ≤ fo.2 ∧ fo.2 ≤ 1) →
        0 ≤ (rothberg_many P tl bins invs fo.1 fo.2).1 ∧
        (rothberg_many P tl bins invs fo.1 fo.2).1 ≤ 1 ∧
        0 ≤ (rothberg_many P tl bins invs fo.1 fo.2).2 ∧
        (rothberg_many P tl bins invs fo.1 fo.2).2 ≤ 1 := by
      intro fo hfo
      unfold rothberg_many
      refine foldl_invariant _
        (fun fo : ℚ × ℚ => 0 ≤ fo.1 ∧ fo.1 ≤ 1 ∧ 0 ≤ fo.2 ∧ fo.2 ≤ 1)
        ?_ invs fo hfo
      intro a b ha
      dsimp only
      have := rothberg_run_RothParamOK P tl bins a.1 a.2 b
        hred0 hred1 hmin0 hmin1 ha.1 ha.2.1 ha.2.2.1 ha.2.2.2
      exact this
    exact key (f, off) ⟨hf0, hf1, ho0, ho1⟩
  · intro invs mn mx h0 h1 h2
    have key : ∀ w : ℚ × ℚ, (0 ≤ w.1 ∧ w.1 ≤ w.2 ∧ w.2 ≤ 1) →
        0 ≤ (maravilha_many Q tlm invs w.1 w.2).1 ∧
        (maravilha_many Q tlm invs w.1 w.2).1
          ≤ (maravilha_many Q tlm invs w.1 w.2).2 ∧
        (maravilha_many Q tlm invs w.1 w.2).2 ≤ 1 := by
      intro w hw
      unfold maravilha_many
      refine foldl_invariant _
        (fun w : ℚ × ℚ => 0 ≤ w.1 ∧ w.1 ≤ w.2 ∧ w.2 ≤ 1)
        ?_ invs w hw
      intro a b ha
      dsimp only
      exact maravilha_run_MarParamOK Q tlm a.1 a.2 b.pool b.incumbent_obj
        b.incumbent_sol b.events hoq0 hoq1 ha.1 ha.2.1 ha.2.2
    exact key (mn, mx) ⟨h0, h1, h2⟩

theorem adaptive_parameters_in_range_witness :
    (0 ≤ rothP2.offset_reduction ∧ rothP2.offset_reduction ≤ 1 ∧
      0 ≤ rothP2.offset_minimum ∧ rothP2.offset_minimum ≤ 1 ∧
      0 ≤ marP1.offset ∧ marP1.offset ≤ 1) ∧
    RothParamOK (mutation_iter rothP2 1 mutEvNone stOne) ∧
    MarParamOK (maravilha_iter marP1 1 marEvNone stMarOne) ∧
    (0 ≤ (rothberg_many rothP2 1 [] [inpOne] (1 / 2) (1 / 5)).1 ∧
      (rothberg_many rothP2 1 [] [inpOne] (1 / 2) (1 / 5)).1 ≤ 1 ∧
      0 ≤ (rothberg_many rothP2 1 [] [inpOne] (1 / 2) (1 / 5)).2 ∧
      (rothberg_many rothP2 1 [] [inpOne] (1 / 2) (1 / 5)).2 ≤ 1) := by
  have hb : 0 ≤ rothP2.offset_reduction ∧ rothP2.offset_reduction ≤ 1 ∧
      0 ≤ rothP2.offset_minimum ∧ rothP2.offset_minimum ≤ 1 ∧
      0 ≤ marP1.offset ∧ marP1.offset ≤ 1 := by
    norm_num [rothP2, marP1]
  have hth := adaptive_parameters_in_range rothP2 1 [] marP1 1
    hb.1 hb.2.1 hb.2.2.1 hb.2.2.2.1 hb.2.2.2.2.1 hb.2.2.2.2.2
  refine ⟨hb, ?_, ?_, ?_⟩
  · apply hth.1
    norm_num [RothParamOK, stOne]
  · apply hth.2.1
    norm_num [MarParamOK, stMarOne]
  · exact hth.2.2.1 [inpOne] (1 / 2) (1 / 5) (by norm_num) (by norm_num)
      (by norm_num) (by norm_num)

/-! ## C9: what is installed on the sub-MIP solver -/

theorem mutation_iter_calls (P : RothbergParams) (tl : ℚ)
    (ev : MutationEvent) (st : RothRunState) :
    ((mutation_iter P tl ev st).mutation_calls = st.mutation_calls ∨
      (mutation_iter P tl ev st).mutation_calls = st.mutation_calls ++
        [{ mip_start := none, time_limit := tl, nodes_limit := ULLONG_MAX,
           stagnation_limit := P.submip_nodes_unsuccessful }]) ∧
    (mutation_iter P tl ev st).recomb_calls = st.recomb_calls := by
  unfold mutation_iter
  dsimp only
  split
  · exact ⟨Or.inl rfl, rfl⟩
  split
  · exact ⟨Or.inl rfl, rfl⟩
  obtain ⟨-, -, -, hmc, hrc, -⟩ := harvest_fields P.sense ev.outcome
    { st with mutation_calls := st.mutation_calls ++
      [{ mip_start := none, time_limit := tl, nodes_limit := ULLONG_MAX,
         stagnation_limit := P.submip_nodes_unsuccessful }] }
  split
  · exact ⟨Or.inr (by rw [hmc]), by rw [hrc]⟩
  split
  · exact ⟨Or.inr (by simpa using hmc), by simpa using hrc⟩
  · exact ⟨Or.inr (by simpa using hmc), by simpa using hrc⟩

theorem recomb_iter_calls (P : RothbergParams) (tl : ℚ) (bins : List ℕ)
    (ca i : ℕ) (ev : RecombEvent) (st : RothRunState) :
    (recomb_iter P tl bins ca i ev st).recomb_calls = st.recomb_calls ∨
    ∃ rc, (recomb_iter P tl bins ca i ev st).recomb_calls
        = st.recomb_calls ++ [(i, rc)] ∧
      (rc.mode = RecombMode.consensus ↔ i = ca) ∧
      (∃ s, rc.call.mip_start = some s) ∧
      rc.call.time_limit = tl ∧ rc.call.nodes_limit = ULLONG_MAX ∧
      rc.call.stagnation_limit = P.submip_nodes_unsuccessful := by
  unfold recomb_iter
  dsimp only
  split
  · exact Or.inl rfl
  split
  · exact Or.inl rfl
  right
  rw [(harvest_fields P.sense ev.outcome _).2.2.2.2.1]
  by_cases hca : i = ca
  · simp only [hca, if_pos rfl]
    exact ⟨_, rfl, by simp, ⟨_, rfl⟩, rfl, rfl, rfl⟩
  · simp only [if_neg hca]
    refine ⟨_, rfl, ?_, ⟨_, rfl⟩, rfl, rfl, rfl⟩
    simp only [iff_false, hca]
    intro hcontra
    exact absurd hcontra (by simp)

/-- C9 (amended): every sub-problem solved in the Rothberg mutation phase
carries the inherited time limit, an effectively unbounded node cap
(`ULLONG_MAX`) and the stagnation limit `submip_nodes_unsuccessful` on its
abort controller, but NO warm start at all — `addMIPStart` is never called
in the mutation loop; only recombination-phase sub-problems receive a MIP
start (a pool entry, not the incumbent). -/
theorem mutation_calls_no_warm_start (P : RothbergParams) (tl : ℚ)
    (bins : List ℕ) (f off : ℚ) (inp : RothbergInput) :
    (∀ c ∈ (rothberg_run P tl bins f off inp).mutation_calls,
      c.mip_start = none ∧ c.time_limit = tl ∧ c.nodes_limit = ULLONG_MAX ∧
      c.stagnation_limit = P.submip_nodes_unsuccessful) ∧
    (∀ pc ∈ (rothberg_run P tl bins f off inp).recomb_calls,
      (∃ s, pc.2.call.mip_start = some s) ∧ pc.2.call.time_limit = tl ∧
      pc.2.call.nodes_limit = ULLONG_MAX ∧
      pc.2.call.stagnation_limit = P.submip_nodes_unsuccessful) := by
  apply rothberg_run_invariant P tl bins f off inp
    (fun st =>
      (∀ c ∈ st.mutation_calls,
        c.mip_start = none ∧ c.time_limit = tl ∧ c.nodes_limit = ULLONG_MAX ∧
        c.stagnation_limit = P.submip_nodes_unsuccessful) ∧
      (∀ pc ∈ st.recomb_calls,
        (∃ s, pc.2.call.mip_start = some s) ∧ pc.2.call.time_limit = tl ∧
        pc.2.call.nodes_limit = ULLONG_MAX ∧
        pc.2.call.stagnation_limit = P.submip_nodes_unsuccessful))
  · intro ev st h
    obtain ⟨hmc, hrc⟩ := mutation_iter_calls P tl ev st
    refine ⟨?_, by rw [hrc]; exact h.2⟩
    rcases hmc with hmc | hmc
    · rw [hmc]; exact h.1
    · rw [hmc]
      intro c hc
      rcases List.mem_append.mp hc with hc | hc
      · exact h.1 c hc
      · simp only [List.mem_singleton] at hc
        subst hc
        exact ⟨rfl, rfl, rfl, rfl⟩
  · intro ca i ev st h
    obtain ⟨hfix, hoff, hmc⟩ := recomb_iter_pre P tl bins ca i ev st
    refine ⟨by rw [hmc]; exact h.1, ?_⟩
    rcases recomb_iter_calls P tl bins ca i ev st with hrc | ⟨rc, hrc, -, hs, h1, h2, h3⟩
    · rw [hrc]; exact h.2
    · rw [hrc]
      intro pc hpc
      rcases List.mem_append.mp hpc with hpc | hpc
      · exact h.2 pc hpc
      · simp only [List.mem_singleton] at hpc
        subst hpc
        exact ⟨hs, h1, h2, h3⟩
  · exact fun st h => h
  · exact fun st h => h
  · exact ⟨by simp, by simp⟩

theorem mutation_calls_no_warm_start_witness :
    ((rothberg_run rothP2 1 [] (1 / 2) (1 / 5) inpOne).mutation_calls ≠ []) ∧
    (∀ c ∈ (rothberg_run rothP2 1 [] (1 / 2) (1 / 5) inpOne).mutation_calls,
      c.mip_start = none ∧ c.time_limit = 1 ∧ c.nodes_limit = ULLONG_MAX ∧
      c.stagnation_limit = rothP2.submip_nodes_unsuccessful) ∧
    (∀ pc ∈ (rothberg_run rothP2 1 [] (1 / 2) (1 / 5) inpOne).recomb_calls,
      (∃ s, pc.2.call.mip_start = some s) ∧ pc.2.call.time_limit = 1 ∧
      pc.2.call.nodes_limit = ULLONG_MAX ∧
      pc.2.call.stagnation_limit = rothP2.submip_nodes_unsuccessful) := by
  have hth := mutation_calls_no_warm_start rothP2 1 [] (1 / 2) (1 / 5) inpOne
  refine ⟨?_, hth.1, hth.2⟩
  decide

/-- C9 counterexample: in a concrete run over a one-entry pool with a
single mutation iteration, the only mutation-phase sub-MIP solve happens
with no MIP start installed, refuting the claim that every mutation-phase
sub-problem receives the current incumbent as a warm start. -/
theorem mutation_warm_start_counterexample :
    (rothberg_run rothP1 1 [] (1 / 2) (1 / 5) inpOne).mutation_calls.map
        SubMIPCall.mip_start = [none] ∧
    ((rothberg_run rothP1 1 [] (1 / 2) (1 / 5) inpOne).mutation_calls.all
        fun c => c.mip_start.isSome) = false := by
  decide

/-! ## C6: the consensus recombination iteration -/

theorem recomb_iter_live (P : RothbergParams) (tl : ℚ) (bins : List ℕ)
    (ca i : ℕ) (ev : RecombEvent) (st : RothRunState)
    (hstop : st.stopped = false) (ht : ev.timer_expired = false) :
    ∃ rc, (recomb_iter P tl bins ca i ev st).recomb_calls
        = st.recomb_calls ++ [(i, rc)] ∧
      rc.mode = (if i = ca then RecombMode.consensus else RecombMode.pairwise) ∧
      (recomb_iter P tl bins ca i ev st).stopped = false := by
  unfold recomb_iter
  rw [if_neg (by rw [hstop]; exact Bool.false_ne_true)]
  rw [if_neg (by rw [ht]; exact Bool.false_ne_true)]
  dsimp only
  obtain ⟨-, -, -, -, hrc, hst⟩ := harvest_fields P.sense ev.outcome _
  rw [hrc, hst]
  by_cases hca : i = ca
  · exact ⟨_, rfl, by simp [hca], hstop⟩
  · exact ⟨_, rfl, by simp [hca], hstop⟩

theorem recomb_loop_calls_prop (P : RothbergParams) (tl : ℚ) (bins : List ℕ)
    (ca : ℕ) (evs : ℕ → RecombEvent) (n : ℕ) :
    ∀ (l : List ℕ) (st : RothRunState),
      (∀ i ∈ l, i < n) →
      (∀ p ∈ st.recomb_calls,
        (p.2.mode = RecombMode.consensus ↔ p.1 = ca) ∧ p.1 < n) →
      ∀ p ∈ (recomb_loop P tl bins ca evs l st).recomb_calls,
        (p.2.mode = RecombMode.consensus ↔ p.1 = ca) ∧ p.1 < n := by
  intro l
  induction l with
  | nil => intro st hl hst; simpa [recomb_loop] using hst
  | cons i rest ih =>
    intro st hl hst
    simp only [recomb_loop]
    apply ih
    · intro j hj
      exact hl j (List.mem_cons_of_mem _ hj)
    · rcases recomb_iter_calls P tl bins ca i (evs i) st with
        hrc | ⟨rc, hrc, hiff, -, -, -, -⟩
      · rw [hrc]; exact hst
      · rw [hrc]
        intro p hp
        rcases List.mem_append.mp hp with hp | hp
        · exact hst p hp
        · simp only [List.mem_singleton] at hp
          subst hp
          exact ⟨hiff, hl i (List.mem_cons_self _ _)⟩

theorem recomb_loop_no_timer (P : RothbergParams) (tl : ℚ) (bins : List ℕ)
    (ca : ℕ) (evs : ℕ → RecombEvent)
    (htimer : ∀ i, (evs i).timer_expired = false) :
    ∀ (l : List ℕ) (st : RothRunState), st.stopped = false →
      ((recomb_loop P tl bins ca evs l st).recomb_calls.map Prod.fst
        = st.recomb_calls.map Prod.fst ++ l) ∧
      ((recomb_loop P tl bins ca evs l st).recomb_calls.filter
          fun p => p.2.mode == RecombMode.consensus).length
        = ((st.recomb_calls.filter
            fun p => p.2.mode == RecombMode.consensus).length
          + (l.filter fun i => i == ca).length) ∧
      (recomb_loop P tl bins ca evs l st).stopped = false := by
  intro l
  induction l with
  | nil => intro st hstop; simp [recomb_loop, hstop]
  | cons i rest ih =>
    intro st hstop
    obtain ⟨rc, hrc, hmode, hstop'⟩ :=
      recomb_iter_live P tl bins ca i (evs i) st hstop (htimer i)
    simp only [recomb_loop]
    obtain ⟨ihm, ihf, ihs⟩ := ih (recomb_iter P tl bins ca i (evs i) st) hstop'
    refine ⟨?_, ?_, ihs⟩
    · rw [ihm, hrc]
      simp
    · rw [ihf, hrc]
      rw [List.filter_append, List.length_append]
      by_cases hca : i = ca
      · have : (rc.mode == RecombMode.consensus) = true := by
          rw [hmode, if_pos hca]; rfl
        simp only [List.filter_cons, List.filter_nil, this,
          List.filter_singleton]
        have hi : (i == ca) = true := by simpa using hca
        simp [hi, this]
        omega
      · have : (rc.mode == RecombMode.consensus) = false := by
          rw [hmode, if_neg hca]; rfl
        have hi : (i == ca) = false := by simpa using hca
        simp [hi, this]

theorem filter_beq_range_length (ca n : ℕ) :
    ((List.range n).filter fun i => i == ca).length
      = if ca < n then 1 else 0 := by
  induction n with
  | zero => simp
  | succ n ih =>
    rw [List.range_succ, List.filter_append, List.length_append, ih]
    by_cases h : ca < n
    · have hne : (n == ca) = false := by
        simp only [beq_eq_false_iff_ne, ne_eq]
        omega
      simp only [List.filter_singleton, hne]
      simp only [if_pos h, if_pos (Nat.lt_succ_of_lt h)]
      simp
    · by_cases he : n = ca
      · subst he
        simp only [List.filter_singleton, if_neg h, if_pos (Nat.lt_succ_self n)]
        simp
      · have h2 : ¬ ca < n + 1 := by omega
        have hne : (n == ca) = false := by
          simp only [beq_eq_false_iff_ne, ne_eq]
          exact he
        simp only [List.filter_singleton, hne, if_neg h, if_neg h2]
        simp

/-- C6: in the recombination phase, the consensus iteration index is
`random % num_recombinations`, which lies in `[0, num_recombinations)`
whenever `num_recombinations ≥ 1`; an executed iteration runs in
consensus mode iff its index equals that draw (all others are pairwise,
see `recomb_iter` for the fixing rules and warm starts of the two
modes); when the phase is not cut short by the timer, the executed
iteration indices are exactly `0, ..., num_recombinations - 1` and exactly
one of them is the consensus iteration; and when `num_recombinations = 0`
no iteration executes and no consensus iteration ever fires.  (In the C++
source, `random_() % num_recombinations` with `num_recombinations = 0` is
a division by zero; `Nat.mod` by zero is total here and the loop over
`List.range 0` performs no iterations.) -/
theorem consensus_iteration (P : RothbergParams) (tl : ℚ) (bins : List ℕ)
    (rand : ℕ) (evs : ℕ → RecombEvent) (st : RothRunState)
    (hrc : st.recomb_calls = []) (hstop : st.stopped = false) :
    (∀ p ∈ (recomb_loop P tl bins (rand % P.num_recombinations) evs
        (List.range P.num_recombinations) st).recomb_calls,
      (p.2.mode = RecombMode.consensus ↔ p.1 = rand % P.num_recombinations) ∧
      p.1 < P.num_recombinations) ∧
    (P.num_recombinations = 0 →
      (recomb_loop P tl bins (rand % P.num_recombinations) evs
        (List.range P.num_recombinations) st).recomb_calls = []) ∧
    (1 ≤ P.num_recombinations →
      rand % P.num_recombinations < P.num_recombinations) ∧
    ((∀ i, (evs i).timer_expired = false) →
      ((recomb_loop P tl bins (rand % P.num_recombinations) evs
          (List.range P.num_recombinations) st).recomb_calls.map Prod.fst
        = List.range P.num_recombinations) ∧
      ((recomb_loop P tl bins (rand % P.num_recombinations) evs
          (List.range P.num_recombinations) st).recomb_calls.filter
            fun p => p.2.mode == RecombMode.consensus).length
        = if P.num_recombinations = 0 then 0 else 1) := by
  refine ⟨?_, ?_, ?_, ?_⟩
  · apply recomb_loop_calls_prop P tl bins _ evs P.num_recombinations
    · intro i hi
      simpa using List.mem_range.mp hi
    · rw [hrc]
      intro p hp
      simp at hp
  · intro h0
    rw [h0]
    simp only [List.range_zero]
    rw [recomb_loop]
    rw [hrc]
  · intro h1
    exact Nat.mod_lt _ (by omega)
  · intro htimer
    obtain ⟨hm, hf, -⟩ := recomb_loop_no_timer P tl bins
      (rand % P.num_recombinations) evs htimer
      (List.range P.num_recombinations) st hstop
    rw [hrc] at hm hf
    simp only [List.map_nil, List.nil_append, List.filter_nil,
      List.length_nil, Nat.zero_add] at hm hf
    refine ⟨hm, ?_⟩
    rw [hf, filter_beq_range_length]
    by_cases h0 : P.num_recombinations = 0
    · simp [h0]
    · rw [if_pos (Nat.mod_lt _ (by omega)), if_neg h0]

theorem consensus_iteration_witness :
    stTwo.recomb_calls = [] ∧ stTwo.stopped = false ∧
    (1 ≤ rothP2.num_recombinations →
      3 % rothP2.num_recombinations < rothP2.num_recombinations) ∧
    ((recomb_loop rothP2 1 [] (3 % rothP2.num_recombinations)
        (fun _ => recEvNone) (List.range rothP2.num_recombinations)
        stTwo).recomb_calls.map Prod.fst
      = List.range rothP2.num_recombinations) ∧
    ((recomb_loop rothP2 1 [] (3 % rothP2.num_recombinations)
        (fun _ => recEvNone) (List.range rothP2.num_recombinations)
        stTwo).recomb_calls.filter
          fun p => p.2.mode == RecombMode.consensus).length
      = if rothP2.num_recombinations = 0 then 0 else 1 := by
  have h1 : stTwo.recomb_calls = [] := rfl
  have h2 : stTwo.stopped = false := rfl
  have hth := consensus_iteration rothP2 1 [] 3 (fun _ => recEvNone) stTwo h1 h2
  have hfull := hth.2.2.2 (fun _ => rfl)
  exact ⟨h1, h2, hth.2.2.1, hfull.1, hfull.2⟩

/-! ## C10: the abort controller's stagnation path ignores the sense -/

/-- C10: the stagnation path of `AbortCallback::main` recognises an
incumbent improvement only as a DECREASE of the incumbent objective by
more than the literal `1e-5`, with no reference to the optimization sense
(the callback state carries none): on a live, initialised callback that
hits neither the time nor the node limit, the baseline is reset iff the
objective decreased by more than `1e-5`; hence on a maximization problem
an increasing (improving) incumbent never resets the baseline, and the
stagnation abort fires as soon as
`nnodes - nodes_last > nodes_unsuccessful` even though improvements
occurred. -/
theorem abort_stagnation_sense_independent (P : AbortParams)
    (st : AbortState) (obs : AbortObs)
    (hab : st.aborted = false) (hin : st.initialized = true)
    (htime : ¬ (P.has_timer ∧ obs.elapsed_seconds ≥ P.time_limit))
    (hnode : ¬ obs.nnodes ≥ P.nodes_limit) :
    (st.obj_last_incumbent - obs.incumbent_obj > 1 / 100000 →
      abort_main P st obs =
        { st with obj_last_incumbent := obs.incumbent_obj,
                  nodes_last_incumbent := obs.nnodes }) ∧
    (¬ st.obj_last_incumbent - obs.incumbent_obj > 1 / 100000 →
      (abort_main P st obs).obj_last_incumbent = st.obj_last_incumbent ∧
      (abort_main P st obs).nodes_last_incumbent = st.nodes_last_incumbent ∧
      ((abort_main P st obs).aborted = true ↔
        obs.nnodes - st.nodes_last_incumbent > P.nodes_unsuccessful)) ∧
    (st.obj_last_incumbent < obs.incumbent_obj →
      (abort_main P st obs).nodes_last_incumbent = st.nodes_last_incumbent ∧
      (obs.nnodes - st.nodes_last_incumbent > P.nodes_unsuccessful →
        (abort_main P st obs).aborted = true)) := by
  have hmain : abort_main P st obs =
      if st.obj_last_incumbent - obs.incumbent_obj > 1 / 100000 then
        { st with obj_last_incumbent := obs.incumbent_obj,
                  nodes_last_incumbent := obs.nnodes }
      else if obs.nnodes - st.nodes_last_incumbent > P.nodes_unsuccessful then
        { st with aborted := true }
      else st := by
    unfold abort_main
    rw [if_neg (by rw [hab]; exact Bool.false_ne_true)]
    rw [if_neg htime]
    rw [if_neg hnode]
    rw [if_neg (by rw [hin]; simp)]
  have hdec : ¬ st.obj_last_incumbent - obs.incumbent_obj > 1 / 100000 →
      (abort_main P st obs).obj_last_incumbent = st.obj_last_incumbent ∧
      (abort_main P st obs).nodes_last_incumbent = st.nodes_last_incumbent ∧
      ((abort_main P st obs).aborted = true ↔
        obs.nnodes - st.nodes_last_incumbent > P.nodes_unsuccessful) := by
    intro h
    rw [hmain, if_neg h]
    by_cases hs : obs.nnodes - st.nodes_last_incumbent > P.nodes_unsuccessful
    · rw [if_pos hs]
      exact ⟨rfl, rfl, by simpa using hs⟩
    · rw [if_neg hs]
      refine ⟨rfl, rfl, ?_⟩
      rw [hab]
      simp only [Bool.false_eq_true, false_iff]
      exact hs
  refine ⟨fun h => by rw [hmain, if_pos h], hdec, ?_⟩
  intro hinc
  have h : ¬ st.obj_last_incumbent - obs.incumbent_obj > 1 / 100000 := by
    have : (0 : ℚ) < 1 / 100000 := by norm_num
    intro hcon
    linarith
  obtain ⟨-, h2, h3⟩ := hdec h
  exact ⟨h2, fun hs => h3.mpr hs⟩

theorem abort_stagnation_sense_independent_witness :
    (AbortState.aborted
        { initialized := true, aborted := false, obj_last_incumbent := 0,
          nodes_last_incumbent := 0 } = false) ∧
    ((0 : ℚ) <
      AbortObs.incumbent_obj
        { elapsed_seconds := 1, incumbent_obj := 50, nnodes := 10 }) ∧
    ((abort_main
        { time_limit := 10, nodes_limit := 1000, nodes_unsuccessful := 5,
          has_timer := true }
        { initialized := true, aborted := false, obj_last_incumbent := 0,
          nodes_last_incumbent := 0 }
        { elapsed_seconds := 1, incumbent_obj := 50,
          nnodes := 10 }).nodes_last_incumbent = 0) ∧
    ((abort_main
        { time_limit := 10, nodes_limit := 1000, nodes_unsuccessful := 5,
          has_timer := true }
        { initialized := true, aborted := false, obj_last_incumbent := 0,
          nodes_last_incumbent := 0 }
        { elapsed_seconds := 1, incumbent_obj := 50,
          nnodes := 10 }).aborted = true) := by
  have hth := abort_stagnation_sense_independent
    { time_limit := 10, nodes_limit := 1000, nodes_unsuccessful := 5,
      has_timer := true }
    { initialized := true, aborted := false, obj_last_incumbent := 0,
      nodes_last_incumbent := 0 }
    { elapsed_seconds := 1, incumbent_obj := 50, nnodes := 10 }
    rfl rfl (by norm_num) (by norm_num)
  have hpart := hth.2.2 (by norm_num)
  exact ⟨rfl, by norm_num, hpart.1, hpart.2 (by norm_num)⟩

end ORCS
